import Mathlib

/-!
Verification of the CKY-parser-with-agreement-checking repository.

This file gives a shallow embedding, in Lean 4, of the core of the
repository:

* `src/cky_parser.py` — the class `CKYParser` (grammar loading via the
  reverse lookup tables `terminal_rules` / `binary_rules`, the chart
  filling in `parse`, and the tree enumeration `_build_trees`);
* `src/cnf_converter.py` — the class `CFGtoCNFConverter` (the five-step
  CNF pipeline `convert_to_cnf` and the predicate `is_valid_cnf`);
* `src/agreement_checker.py` — `_check_subject_verb_agreement`;
* `src/main.py` — `_check_verb_subcategorization`;
* `src/parse_tree_converter.py` — `ParseTreeConverter.is_auxiliary` and
  `_convert_node`.

Python dictionaries are embedded as insertion-ordered association lists,
Python sets of grammar symbols as duplicate-free insertion-ordered lists,
and feature dictionaries as structures of `Option String` fields (only
the keys the embedded functions actually read).  Loops whose exit
condition is a fixpoint test (`while changed`) are embedded with an
explicit fuel that dominates the number of iterations the Python loop can
make; the recursive tree enumeration `_build_trees` likewise carries a
fuel parameter (the Python recursion has no such parameter; termination
there rests on the shape of the charts `parse` builds, and the theorems
below establish every fact about `_build_trees` for the fuel that
`parse` supplies).
-/

/-- `List.foldl` with the initial accumulator as the second positional
argument (used throughout the CNF-converter embedding, whose Python
loops thread an accumulator through nested folds). -/
def foldlFrom {α β : Type} (l : List α) (b : β) (f : β → α → β) : β :=
  l.foldl f b

namespace CKY

/-- A production right-hand side: an ordered list of symbols
(`prod` in the Python sources). -/
abbrev Production := List String

/-- A grammar as `CKYParser.load_grammar` receives it: a Python dict
mapping a non-terminal to its list of productions, embedded as an
insertion-ordered association list. -/
abbrev Rules := List (String × List Production)

/-- `self.non_terminals = set(grammar.keys())` membership test:
a symbol is a non-terminal iff it is a key of the grammar dict. -/
def isNonterminal (g : Rules) (s : String) : Bool :=
  g.any fun ntps => ntps.1 == s

/-- A rule `A -> p` is present in the grammar dict. -/
def HasRule (g : Rules) (A : String) (p : Production) : Prop :=
  ∃ ps, (A, ps) ∈ g ∧ p ∈ ps

/-- `self.terminal_rules[t]`: the list of non-terminals `A` with a
length-1 production `A -> [t]`, in the order `load_grammar`'s nested
loops append them (grammar-key-major, production order within a key),
with multiplicity. -/
def terminalRules (g : Rules) (t : String) : List String :=
  g.flatMap fun ntps => ntps.2.filterMap fun p =>
    if p = [t] then some ntps.1 else none

/-- `self.binary_rules[(b, c)]`: the list of non-terminals `A` with a
length-2 production `A -> [b, c]`, in append order, with multiplicity. -/
def binaryRules (g : Rules) (b c : String) : List String :=
  g.flatMap fun ntps => ntps.2.filterMap fun p =>
    if p = [b, c] then some ntps.1 else none

/-- Python truthiness of the `pos_constraints` argument:
`None` and the empty list are both falsy (`if pos_constraints:`). -/
def consTruthy : Option (List String) → Bool
  | none => false
  | some [] => false
  | some (_ :: _) => true

/-- Adding elements of `xs` to the insertion-ordered set `acc`
(`chart[i][j].add(x)` for each `x`): append an element iff it is not
already present. -/
def addUnique (acc : List String) (xs : List String) : List String :=
  xs.foldl (fun a x => if x ∈ a then a else a ++ [x]) acc

/-- A back-pointer entry, the tagged tuples the Python code stores in
`back[i][j][nt]`: `('terminal', word)`, `('node', tag, i, j)` and
`('binary', b, c, k)`. -/
inductive Entry
  | terminal (w : String)
  | node (nt : String) (i j : Nat)
  | binary (b c : String) (k : Nat)
deriving DecidableEq, Repr

/-- A parse tree as `_build_trees` produces it: the tuples
`(nt, word)`, `(nt, child)` and `(nt, left, right)`. -/
inductive CTree
  | leaf (nt w : String)
  | unit (nt : String) (c : CTree)
  | bin (nt : String) (l r : CTree)
deriving DecidableEq, Repr

/-- The grammar the parser holds after `load_grammar(grammar, start_symbol)`. -/
structure LoadedGrammar where
  grammar : Rules
  start : String

/-- The diagonal chart cell `chart[i][i]` when POS constraints are active:
first `chart[i][i].add(tag)`, then every `nt ∈ terminal_rules[tag]` is
added if not already present. -/
def diagCellCons (g : Rules) (tag : String) : List String :=
  addUnique [tag] (terminalRules g tag)

/-- The diagonal chart cell `chart[i][i]` without POS constraints:
every `nt ∈ terminal_rules[word]` is added. -/
def diagCellLex (g : Rules) (word : String) : List String :=
  addUnique [] (terminalRules g word)

/-- The diagonal chart cell at position `i` (both initialisation modes of
`parse`, selected by the truthiness of `pos_constraints`). -/
def diagCell (g : Rules) (toks : List String) (cons : Option (List String))
    (i : Nat) : List String :=
  if consTruthy cons then diagCellCons g ((cons.getD []).getD i "")
  else diagCellLex g (toks.getD i "")

/-- The chart cell `chart[i][j]` after `parse`'s chart-filling loops,
parameterised by the diagonal initialisation `diag` (which `parse`
computes from the optional POS constraints).  The Python code fills
cells in increasing span order, so when the loops for span `(i, j)`
read `chart[i][k]` and `chart[k+1][j]` those strictly smaller spans are
already final; the recursion below mirrors exactly the candidates
`(k, b, c, a)` produced by the four nested loops, in loop order.
The recursion is presented with a fuel parameter that bounds the span
width (`parse` supplies the sentence length, which dominates every
span); the `fuel = 0` branch is unreachable at the fuel `parse`
supplies, since each recursive call strictly shrinks the span. -/
def cell (g : Rules) (diag : Nat → List String) :
    Nat → Nat → Nat → List String
  | fuel, i, j =>
    if j ≤ i then diag i
    else
      match fuel with
      | 0 => []
      | f + 1 =>
        addUnique []
          ((List.range' i (j - i)).flatMap fun k =>
            (cell g diag f i k).flatMap fun b =>
              (cell g diag f (k + 1) j).flatMap fun c =>
                binaryRules g b c)

/-- The back-pointer list `back[i][i][nt]` when POS constraints are
active: the tag gets a single `('terminal', word)` entry, and every
other non-terminal `nt ∈ terminal_rules[tag]` gets a single
`('node', tag, i, i)` entry (the `if nt not in chart[i][i]` test makes
later duplicate occurrences of `nt` in `terminal_rules[tag]` no-ops). -/
def diagBackCons (g : Rules) (tag word : String) (i : Nat) (nt : String) :
    List Entry :=
  if nt = tag then [.terminal word]
  else if nt ∈ terminalRules g tag then [.node tag i i]
  else []

/-- The back-pointer list `back[i][i][nt]` without POS constraints: one
`('terminal', word)` entry per occurrence of `nt` in
`terminal_rules[word]` (the append is unconditional in the source). -/
def diagBackLex (g : Rules) (word : String) (nt : String) : List Entry :=
  (terminalRules g word).filterMap fun a =>
    if a = nt then some (.terminal word) else none

/-- The diagonal back-pointer lists `back[i][i]` in both initialisation
modes of `parse`, selected by the truthiness of `pos_constraints`. -/
def diagBack (g : Rules) (toks : List String) (cons : Option (List String))
    (i : Nat) (nt : String) : List Entry :=
  if consTruthy cons then
    diagBackCons g ((cons.getD []).getD i "") (toks.getD i "") i nt
  else diagBackLex g (toks.getD i "") nt

/-- The back-pointer list `back[i][j][nt]` after `parse`'s loops,
parameterised by the diagonal chart initialisation `diag` and the
diagonal back-pointer initialisation `diagB`.  For `i < j` the entries
are exactly the `('binary', b, c, k)` appends of the chart-filling
loops, in loop order with multiplicity. -/
def backCell (g : Rules) (diag : Nat → List String)
    (diagB : Nat → String → List Entry) (fuel i j : Nat) (nt : String) :
    List Entry :=
  if j ≤ i then diagB i nt
  else
    (List.range' i (j - i)).flatMap fun k =>
      (cell g diag fuel i k).flatMap fun b =>
        (cell g diag fuel (k + 1) j).flatMap fun c =>
          (binaryRules g b c).filterMap fun a =>
            if a = nt then some (.binary b c k) else none

/-- `max_trees`: the default cap of `_build_trees`. -/
def maxTrees : Nat := 10

mutual

/-- The inner `for right in right_trees[:max_trees]` loop of the binary
case of `_build_trees`: append `(nt, left, right)` and return the whole
accumulated list as soon as its length reaches `max_trees`
(`Sum.inr` = the early `return trees`, `Sum.inl` = fall through). -/
def appendRow (nt : String) (l : CTree) (acc : List CTree) :
    List CTree → List CTree ⊕ List CTree
  | [] => .inl acc
  | r :: rs =>
    let acc' := acc ++ [CTree.bin nt l r]
    if maxTrees ≤ acc'.length then .inr acc' else appendRow nt l acc' rs

/-- The outer `for left in left_trees[:max_trees]` loop of the binary
case of `_build_trees`. -/
def appendPairs (nt : String) (rs : List CTree) (acc : List CTree) :
    List CTree → List CTree ⊕ List CTree
  | [] => .inl acc
  | l :: ls =>
    match appendRow nt l acc rs with
    | .inr t => .inr t
    | .inl a => appendPairs nt rs a ls

end

/-- The `for entry in back[i][j].get(nt, [])[:max_trees]` loop of
`_build_trees`, threading the accumulated `trees` list; `bt` is the
recursive tree builder for the sub-calls (one fuel step down); a
`Sum.inr` produced by the binary case's cap is the early
`return trees`. -/
def goEntries (bt : Nat → Nat → String → List CTree) (i j : Nat)
    (nt : String) : List CTree → List Entry → List CTree
  | acc, [] => acc
  | acc, e :: es =>
    match e with
    | .terminal w => goEntries bt i j nt (acc ++ [.leaf nt w]) es
    | .node cnt ci cj =>
        let cs := bt ci cj cnt
        goEntries bt i j nt (acc ++ cs.map (CTree.unit nt)) es
    | .binary b c k =>
        let ls := bt i k b
        let rs := bt (k + 1) j c
        match appendPairs nt (rs.take maxTrees) acc (ls.take maxTrees) with
        | .inr t => t
        | .inl a => goEntries bt i j nt a es

/-- `CKYParser._build_trees(back, i, j, nt, sentence, max_trees=10)`.
The Python function is general recursion on the back table; the `fuel`
parameter bounds the recursion depth (on the charts `parse` builds, the
recursion descends to strictly smaller spans except for a single
diagonal `('node', tag, i, i)` indirection whose target has only
`('terminal', _)` entries, so `parse`'s fuel of `n + 1` is never
exhausted; the theorems below prove their facts at that fuel). -/
def buildTrees (back : Nat → Nat → String → List Entry) :
    Nat → Nat → Nat → String → List CTree
  | 0, _, _, _ => []
  | f + 1, i, j, nt =>
    goEntries (buildTrees back f) i j nt [] ((back i j nt).take maxTrees)

/-- `CKYParser.parse(sentence, pos_constraints)`: the empty-sentence and
length-mismatch guards, the chart construction, the recognition test
`start_symbol in chart[0][n-1]` and, on success, the call to
`_build_trees` at the root. -/
def parse (g : LoadedGrammar) (sentence : List String)
    (pos_constraints : Option (List String)) : Bool × Option (List CTree) :=
  let n := sentence.length
  if n = 0 then (false, none)
  else if consTruthy pos_constraints &&
      ((pos_constraints.getD []).length != n) then (false, none)
  else
    let success :=
      g.start ∈ cell g.grammar (diagCell g.grammar sentence pos_constraints)
        n 0 (n - 1)
    if success then
      (true, some (buildTrees
        (backCell g.grammar (diagCell g.grammar sentence pos_constraints)
          (diagBack g.grammar sentence pos_constraints) n)
        (n + 1) 0 (n - 1) g.start))
    else (false, none)

/-- Derivations in a grammar, leftmost-rewriting style: `DerStr g xs w`
says the string of symbols `xs` derives the terminal string `w`.  A
symbol that is not a grammar key is a terminal and derives itself; a key
must be rewritten by one of its productions.  This is the standard
derivation relation of a context-free grammar presented as the Python
dicts present it (productions taken literally). -/
inductive DerStr (g : Rules) : List String → List String → Prop
  | nil : DerStr g [] []
  | term {s : String} {rest w : List String} :
      isNonterminal g s = false → DerStr g rest w →
      DerStr g (s :: rest) (s :: w)
  | rule {A : String} {p : Production} {rest w : List String} :
      HasRule g A p → DerStr g (p ++ rest) w → DerStr g (A :: rest) w

/-- The CNF shape of a grammar as loaded into `CKYParser`: every
production is a single terminal `[t]` (a symbol that is not a grammar
key) or a pair `[B, C]` of non-terminals.  (This is the shape the CKY
algorithm assumes; `load_grammar` silently ignores productions of any
other length, and treats a unit production `A -> [B]` as a terminal
rule, so the chart faithfully reflects derivations only for grammars of
this shape.) -/
def IsCNF (g : Rules) : Bool :=
  g.all fun ntps => ntps.2.all fun p =>
    match p with
    | [t] => !isNonterminal g t
    | [b, c] => isNonterminal g b && isNonterminal g c
    | _ => false

/-- `tokens[i..j]` (inclusive span) of a token list. -/
def spanOf (toks : List String) (i j : Nat) : List String :=
  (toks.drop i).take (j - i + 1)

end CKY

namespace CNFConv

open CKY (Production Rules isNonterminal)

/-- The mutable attributes of `CFGtoCNFConverter`: `self.grammar`,
`self.terminals`, `self.non_terminals`, `self.start_symbol`,
`self.new_var_counter`.  The Python sets are embedded as duplicate-free
insertion-ordered lists. -/
structure ConvState where
  grammar : Rules
  terminals : List String
  nonTerminals : List String
  start : String
  counter : Nat
deriving Repr

/-- `dict` lookup on the association-list embedding. -/
def lookupRules (g : Rules) (nt : String) : Option (List Production) :=
  (g.find? fun x => x.1 == nt).map (·.2)

/-- `if new_prod not in new_grammar[nt]: new_grammar[nt].append(new_prod)`
on a `defaultdict(list)`: the key is created (at the end of the dict's
insertion order) if absent, and the production is appended only when not
already present. -/
def addProdChecked (g : Rules) (nt : String) (p : Production) : Rules :=
  if (g.find? fun x => x.1 == nt).isSome then
    g.map fun x =>
      if x.1 == nt then (x.1, if p ∈ x.2 then x.2 else x.2 ++ [p]) else x
  else g ++ [(nt, [p])]

/-- `new_grammar[nt].append(p)` with no duplicate check. -/
def addProdAlways (g : Rules) (nt : String) (p : Production) : Rules :=
  if (g.find? fun x => x.1 == nt).isSome then
    g.map fun x => if x.1 == nt then (x.1, x.2 ++ [p]) else x
  else g ++ [(nt, [p])]

/-- `new_grammar[nt] = ps` (dict assignment). -/
def setRules (g : Rules) (nt : String) (ps : List Production) : Rules :=
  if (g.find? fun x => x.1 == nt).isSome then
    g.map fun x => if x.1 == nt then (x.1, ps) else x
  else g ++ [(nt, ps)]

/-- The `while True` loop of `_generate_new_variable`: try
`prefix + str(counter)`, bumping the counter, until the name is not in
`self.non_terminals`; the fresh name is then added to
`self.non_terminals`.  The loop makes at most `len(non_terminals) + 1`
iterations (the candidates are pairwise distinct), which the fuel
dominates. -/
def genVarGo (pre : String) : Nat → List String → Nat →
    String × List String × Nat
  | 0, nts, counter =>
    let v := pre ++ toString counter
    (v, nts ++ [v], counter + 1)
  | f + 1, nts, counter =>
    let v := pre ++ toString counter
    if v ∈ nts then genVarGo pre f nts (counter + 1)
    else (v, nts ++ [v], counter + 1)

/-- `CFGtoCNFConverter._generate_new_variable(prefix)`. -/
def genVar (pre : String) (nts : List String) (counter : Nat) :
    String × List String × Nat :=
  genVarGo pre (nts.length + 1) nts counter

/-- `CFGtoCNFConverter._start_symbol_on_rhs`. -/
def startOnRHS (g : Rules) (start : String) : Bool :=
  g.any fun ntps => ntps.2.any fun p => p.contains start

/-- `CFGtoCNFConverter._step1_add_new_start_symbol`: if the start symbol
occurs on a right-hand side, generate a fresh `S`-prefixed variable, add
the production `new_start -> [old_start]`, and make it the start. -/
def step1 (st : ConvState) : ConvState :=
  if startOnRHS st.grammar st.start then
    let (v, nts, c) := genVar "S" st.nonTerminals st.counter
    { st with grammar := st.grammar ++ [(v, [[st.start]])],
              nonTerminals := nts, start := v, counter := c }
  else st

/-- The initial pass of `_find_nullable_variables`: non-terminals with a
direct `['ε']` production. -/
def nullableInit (g : Rules) : List String :=
  foldlFrom g [] fun a ntps =>
    if ["ε"] ∈ ntps.2 ∧ ntps.1 ∉ a then a ++ [ntps.1] else a

/-- One pass of the fixed-point loop of `_find_nullable_variables`:
add `nt` when some production of `nt` has all its symbols nullable
(additions are visible to later items of the same pass, as in the
Python `for` loop). -/
def nullablePass (g : Rules) (acc : List String) : List String × Bool :=
  foldlFrom g (acc, false) fun s ntps =>
    if ntps.1 ∈ s.1 then s
    else if ntps.2.any (fun p => p.all fun sym => sym ∈ s.1) then
      (s.1 ++ [ntps.1], true)
    else s

/-- The `while changed` loop of `_find_nullable_variables`, with fuel:
each pass that reports a change adds at least one key, so
`g.length + 1` passes dominate the Python loop. -/
def findNullableGo (g : Rules) : Nat → List String → List String
  | 0, acc => acc
  | f + 1, acc =>
    let s := nullablePass g acc
    if s.2 then findNullableGo g f s.1 else s.1

/-- `CFGtoCNFConverter._find_nullable_variables`. -/
def findNullable (g : Rules) : List String :=
  findNullableGo g (g.length + 1) (nullableInit g)

/-- `itertools.combinations(xs, r)`: all `r`-element sublists of `xs`,
in lexicographic position order. -/
def combinations : List Nat → Nat → List (List Nat)
  | _, 0 => [[]]
  | [], _ + 1 => []
  | x :: xs, r + 1 =>
    (combinations xs r).map (fun c => x :: c) ++ combinations xs (r + 1)

/-- `[symbol for i, symbol in enumerate(prod) if i not in positions_to_remove]`. -/
def removeAtPositions (p : Production) (posns : List Nat) : Production :=
  p.enum.filterMap fun is => if is.1 ∈ posns then none else some is.2

/-- The production-generation part of `_step2_eliminate_epsilon_productions`:
for each non-ε production, every subset of its nullable positions is
removed in turn, and the non-empty results are appended with a
duplicate check. -/
def step2NewProds (nullable : List String) (g : Rules) : Rules :=
  foldlFrom g [] fun ng ntps =>
    foldlFrom ntps.2 ng fun ng p =>
      if p = ["ε"] then ng
      else
        let nullPos := p.enum.filterMap fun is =>
          if is.2 ∈ nullable then some is.1 else none
        foldlFrom (List.range (nullPos.length + 1)) ng fun ng r =>
          foldlFrom (combinations nullPos r) ng fun ng sub =>
            let newProd := removeAtPositions p sub
            if newProd ≠ [] then addProdChecked ng ntps.1 newProd else ng

/-- `CFGtoCNFConverter._step2_eliminate_epsilon_productions`. -/
def step2 (st : ConvState) : ConvState :=
  let nullable := findNullable st.grammar
  let ng := step2NewProds nullable st.grammar
  let ng := if st.start ∈ nullable then addProdAlways ng st.start ["ε"] else ng
  { st with grammar := ng }

/-- `unit_pairs.add(p)` (set add, insertion-ordered embedding). -/
def addPair (ps : List (String × String)) (p : String × String) :
    List (String × String) :=
  if p ∈ ps then ps else ps ++ [p]

/-- The initial unit pairs of `_step3_eliminate_unit_productions`:
identity pairs for every non-terminal, then `(A, B)` for every direct
unit production `A -> [B]` with `B` a non-terminal. -/
def unitPairsInit (st : ConvState) : List (String × String) :=
  let idpairs := st.nonTerminals.foldl (fun a nt => addPair a (nt, nt)) []
  foldlFrom st.grammar idpairs fun a ntps =>
    foldlFrom ntps.2 a fun a p =>
      match p with
      | [b] => if b ∈ st.nonTerminals then addPair a (ntps.1, b) else a
      | _ => a

/-- One pass of the closure loop of `_step3_eliminate_unit_productions`:
collect the compositions `(a, d)` of pairs `(a, b)` and `(b, d)` not yet
present, then union them in. -/
def closurePass (pairs : List (String × String)) :
    List (String × String) × Bool :=
  let newPairs := foldlFrom pairs [] fun np ab =>
    foldlFrom pairs np fun np cd =>
      if ab.2 = cd.1 ∧ (ab.1, cd.2) ∉ pairs ∧ (ab.1, cd.2) ∉ np then
        np ++ [(ab.1, cd.2)]
      else np
  (pairs ++ newPairs, !newPairs.isEmpty)

/-- The `while changed` closure loop, with fuel (every changing pass adds
at least one pair out of a finite square, so the fuel dominates). -/
def closureGo : Nat → List (String × String) → List (String × String)
  | 0, pairs => pairs
  | f + 1, pairs =>
    let s := closurePass pairs
    if s.2 then closureGo f s.1 else s.1

/-- `CFGtoCNFConverter._step3_eliminate_unit_productions`. -/
def step3 (st : ConvState) : ConvState :=
  let pairs := closureGo
    (st.nonTerminals.length * st.nonTerminals.length + 1) (unitPairsInit st)
  let ng := foldlFrom pairs [] fun ng ab =>
    match lookupRules st.grammar ab.2 with
    | none => ng
    | some prods => foldlFrom prods ng fun ng p =>
        if (match p with
            | [b] => decide (b ∈ st.nonTerminals)
            | _ => false) then ng
        else addProdChecked ng ab.1 p
  { st with grammar := ng }

/-- The threaded state of `_step4_replace_terminals_in_mixed_rules`:
the new grammar, the `terminal_vars` map, and the fresh-name state. -/
structure Step4St where
  ng : Rules
  tvars : List (String × String)
  nts : List String
  counter : Nat

/-- Processing of one production in `_step4_replace_terminals_in_mixed_rules`:
single-symbol productions are kept; otherwise each terminal symbol is
replaced by its (possibly freshly generated) `T`-variable, whose rule
`T_k -> [t]` is assigned into the new grammar at generation time. -/
def step4Prod (terminals : List String) (nt : String) (p : Production)
    (s : Step4St) : Step4St :=
  if p.length = 1 then { s with ng := addProdChecked s.ng nt p }
  else
    let sn := foldlFrom p (s, ([] : Production)) fun sn sym =>
      if sym ∈ terminals then
        match sn.1.tvars.find? (fun tv => tv.1 == sym) with
        | some tv => (sn.1, sn.2 ++ [tv.2])
        | none =>
          let (v, nts, c) := genVar "T" sn.1.nts sn.1.counter
          ({ ng := setRules sn.1.ng v [[sym]],
             tvars := sn.1.tvars ++ [(sym, v)], nts := nts, counter := c },
           sn.2 ++ [v])
      else (sn.1, sn.2 ++ [sym])
    { sn.1 with ng := addProdChecked sn.1.ng nt sn.2 }

/-- `CFGtoCNFConverter._step4_replace_terminals_in_mixed_rules`. -/
def step4 (st : ConvState) : ConvState :=
  let s := foldlFrom st.grammar
    (⟨[], [], st.nonTerminals, st.counter⟩ : Step4St) fun s ntps =>
      foldlFrom ntps.2 s fun s p => step4Prod st.terminals ntps.1 p s
  { st with grammar := s.ng, nonTerminals := s.nts, counter := s.counter }

/-- The breaking loop of `_step5_break_long_productions` for one
production of length > 2: generate a fresh `Y`-variable per step and
append the binary pieces (no duplicate check). -/
def step5Break (ng : Rules) (nts : List String) (counter : Nat)
    (current : String) : Production → Rules × List String × Nat
  | x :: y :: z :: rest =>
    let (v, nts', c) := genVar "Y" nts counter
    step5Break (addProdAlways ng current [x, v]) nts' c v (y :: z :: rest)
  | p => (addProdAlways ng current p, nts, counter)

/-- `CFGtoCNFConverter._step5_break_long_productions`. -/
def step5 (st : ConvState) : ConvState :=
  let s := foldlFrom st.grammar
    (([] : Rules), st.nonTerminals, st.counter) fun s ntps =>
      foldlFrom ntps.2 s fun s p =>
        if p.length ≤ 2 then (addProdChecked s.1 ntps.1 p, s.2.1, s.2.2)
        else step5Break s.1 s.2.1 s.2.2 ntps.1 p
  { st with grammar := s.1, nonTerminals := s.2.1, counter := s.2.2 }

/-- `CFGtoCNFConverter.convert_to_cnf`: the five steps in order. -/
def convertToCnf (st : ConvState) : ConvState :=
  step5 (step4 (step3 (step2 (step1 st))))

/-- `CFGtoCNFConverter.is_valid_cnf`. -/
def isValidCnf (st : ConvState) : Bool :=
  st.grammar.all fun ntps => ntps.2.all fun p =>
    if p = ["ε"] then
      ntps.1 == st.start && !startOnRHS st.grammar st.start
    else
      match p with
      | [t] => decide (t ∈ st.terminals)
      | [b, c] => decide (b ∈ st.nonTerminals) && decide (c ∈ st.nonTerminals)
      | _ => false

/-- `CFGtoCNFConverter.parse_grammar(grammar_rules, start_symbol)`
(list-of-symbols productions; `['ε']`/`['epsilon']` normalised to
`['ε']`; terminals are the right-hand-side symbols that are neither
keys nor `ε`; the start symbol falls back to `'S'` if not a key). -/
def parseGrammar (rules : Rules) (startSym : String) : ConvState :=
  let nts := rules.map (·.1)
  let g : Rules := rules.map fun ntps =>
    (ntps.1, ntps.2.map fun p =>
      if p = ["ε"] ∨ p = ["epsilon"] then ["ε"] else p)
  let terms := foldlFrom g [] fun ts ntps =>
    foldlFrom ntps.2 ts fun ts p =>
      foldlFrom p ts fun ts sym =>
        if sym ∉ nts ∧ sym ≠ "ε" ∧ sym ∉ ts then ts ++ [sym] else ts
  { grammar := g, terminals := terms, nonTerminals := nts,
    start := if startSym ∈ nts then startSym else "S", counter := 0 }

/-- The intended reading of a grammar in the repository's JSON format:
the production `['ε']` stands for the empty right-hand side.  The
language-preservation contract of the converter is about this reading. -/
def semGrammar (g : Rules) : Rules :=
  g.map fun ntps => (ntps.1, ntps.2.map fun p => if p = ["ε"] then [] else p)

end CNFConv

namespace Agreement

/-- A per-token feature dict, restricted to the keys the embedded
functions read (`num`, `person`, `tense`, `pos`, `head_pos`, `lemma`;
the last is called `lemmaVal` here because `lemma` is a Lean keyword).
A `none` field is an absent key. -/
structure Features where
  num : Option String := none
  person : Option String := none
  tense : Option String := none
  pos : Option String := none
  head_pos : Option String := none
  lemmaVal : Option String := none
deriving Repr

instance : Inhabited Features := ⟨{}⟩

/-- Python `a or b` on two `dict.get` results: `b` when `a` is `None` or
the empty string (both falsy). -/
def pyOr (a b : Option String) : Option String :=
  match a with
  | none => b
  | some s => if s = "" then b else some s

/-- `AgreementChecker._check_subject_verb_agreement(np_features, vp_features)`. -/
def checkSubjectVerbAgreement (np vp : Features) : Bool × Option String :=
  let subj_num := np.num.getD "any"
  let subj_person := np.person.getD "any"
  let verb_pos := pyOr vp.head_pos vp.pos
  let verb_tense := vp.tense.getD "any"
  if verb_tense = "past" then (true, none)
  else if verb_pos = some "VBZ" then
    if subj_person = "3" ∧ subj_num = "sg" then (true, none)
    else if subj_person = "any" ∨ subj_num = "any" then (true, none)
    else
      (false,
        some s!"Subject-Verb disagreement: NP({subj_person}p, {subj_num}) + VBZ (requires 3sg)")
  else if verb_pos = some "VBP" then
    if subj_person = "3" ∧ subj_num = "sg" then
      (false, some "Subject-Verb disagreement: NP(3sg) + VBP (requires non-3sg)")
    else (true, none)
  else (true, none)

/-- A value of `self.verb_subcat[lemma]`: either the new dict form
(`allows_np` / `requires_pp` possibly absent, with defaults `True` /
`False`) or the legacy flat list of frame names. -/
inductive SubcatInfo
  | dictForm (allows_np requires_pp : Option Bool) (frames : List String)
  | listForm (frames : List String)
deriving DecidableEq, Repr

/-- The `allows_np` flag `_check_verb_subcategorization` computes. -/
def allowsNP : SubcatInfo → Bool
  | .dictForm a _ _ => a.getD true
  | .listForm fs => fs.contains "transitive" || fs.contains "ditransitive"

/-- The `requires_pp` flag `_check_verb_subcategorization` computes. -/
def requiresPP : SubcatInfo → Bool
  | .dictForm _ r _ => r.getD false
  | .listForm fs => fs.contains "pp_required"

/-- `verb_tags` of `EnglishParser._check_verb_subcategorization`. -/
def verbTags : List String := ["VB", "VBD", "VBP", "VBZ", "VBG", "VBN"]

/-- The check `after_verb[0] in ('DT','PRP','NNP','NNPS','CD','PRP$')
or after_verb[0] in ('NN','NNS')` (false on an empty list). -/
def hasNP : List String → Bool
  | [] => false
  | h :: _ =>
    ["DT", "PRP", "NNP", "NNPS", "CD", "PRP$"].contains h ||
      h == "NN" || h == "NNS"

/-- The loop `for i, pos in enumerate(after_verb): if pos == 'IN' and
i + 1 < len(after_verb): has_pp = True`. -/
def hasPP : List String → Bool
  | [] => false
  | [_] => false
  | p :: rest => p == "IN" || hasPP rest

/-- `EnglishParser._check_verb_subcategorization(pos_tags, features)`,
with the verb-subcategorization map as an association list. -/
def checkVerbSubcat (posTags : List String) (feats : List Features)
    (subcat : List (String × SubcatInfo)) : List String :=
  match posTags.findIdx? (fun p => verbTags.contains p) with
  | none => []
  | some v =>
    let verb_lemma := ((feats.getD v default).lemmaVal.getD "").toLower
    match subcat.find? (fun e => e.1 == verb_lemma) with
    | none => []
    | some entry =>
      let allows_np := allowsNP entry.2
      let requires_pp := requiresPP entry.2
      let after_verb := posTags.drop (v + 1)
      let has_np := hasNP after_verb
      let has_pp := hasPP after_verb
      let errs : List String :=
        if has_np ∧ ¬has_pp then
          if requires_pp then
            [s!"Verb {verb_lemma} requires a preposition with its object"]
          else if ¬allows_np then
            [s!"Verb {verb_lemma} does not take a direct object (NP)"]
          else []
        else []
      if requires_pp ∧ ¬has_pp ∧ ¬has_np ∧ v < posTags.length - 1 then
        errs ++ [s!"Verb {verb_lemma} requires a prepositional phrase"]
      else errs

end Agreement

namespace TreeConv

/-- A parse tree as `ParseTreeConverter` manipulates it: the input
tuples `(nt, word)` / `(nt, child...)`, plus the bare word strings that
flattening an auxiliary-labelled leaf splices into a child list. -/
inductive Tree
  | word (w : String)
  | leaf (nt w : String)
  | node (nt : String) (cs : List Tree)
deriving Repr

/-- The converter's configuration: `self.auxiliary_nts`,
`self.original_non_terminals`, `self.auxiliary_prefixes` (default
`{'Y', 'T', 'S0'}`). -/
structure TCConfig where
  auxNTs : List String := []
  origNTs : List String := []
  auxPre : List String := ["Y", "T", "S0"]

/-- Python `str.isdigit()`: non-empty and all digit characters. -/
def pyIsDigitStr (s : String) : Bool :=
  s.length != 0 && s.toList.all fun ch => ch.isDigit

/-- `ParseTreeConverter.is_auxiliary(nt)`: the explicitly-set auxiliary
names (if any), else anything outside the original non-terminal set (if
known), else the reserved-prefix pattern (`Y`, `T`, `S0`, optionally
followed by digits).  Empty Python sets are falsy and skip their check. -/
def isAuxiliary (cfg : TCConfig) (nt : String) : Bool :=
  (!cfg.auxNTs.isEmpty && cfg.auxNTs.contains nt) ||
  (!cfg.origNTs.isEmpty && !cfg.origNTs.contains nt) ||
  cfg.auxPre.any fun pre =>
    nt.startsWith pre &&
      (nt.length == pre.length || pyIsDigitStr (nt.drop pre.length))

/-- How `_convert_node` incorporates one converted child into the
parent's child list: a tuple of length > 1 with an auxiliary label is
replaced by its elements after the label (for a leaf `(nt, word)` that
splices the bare word), anything else is appended as is. -/
def spliceChild (cfg : TCConfig) (c : Tree) : List Tree :=
  match c with
  | .word w => [.word w]
  | .leaf a w => if isAuxiliary cfg a then [.word w] else [.leaf a w]
  | .node a cs => if !cs.isEmpty && isAuxiliary cfg a then cs else [.node a cs]

mutual

/-- `ParseTreeConverter._convert_node(node)`: leaves are returned
unchanged; for an internal node the children are converted recursively
and incorporated via `spliceChild`; the node keeps its own label. -/
def convertNode (cfg : TCConfig) : Tree → Tree
  | .word w => .word w
  | .leaf nt w => .leaf nt w
  | .node nt cs => .node nt (convertChildren cfg cs)

/-- The `for child in children` loop of `_convert_node`: convert each
child and splice the result into the accumulated child list. -/
def convertChildren (cfg : TCConfig) : List Tree → List Tree
  | [] => []
  | c :: cs => spliceChild cfg (convertNode cfg c) ++ convertChildren cfg cs

end

/-- Embedding of the CKY output trees into the converter's tree type. -/
def embedC : CKY.CTree → Tree
  | .leaf nt w => .leaf nt w
  | .unit nt c => .node nt [embedC c]
  | .bin nt l r => .node nt [embedC l, embedC r]

mutual

/-- The frontier (left-to-right word sequence) of a tree. -/
def yieldT : Tree → List String
  | .word w => [w]
  | .leaf _ w => [w]
  | .node _ cs => yieldL cs

/-- The concatenated frontiers of a list of trees. -/
def yieldL : List Tree → List String
  | [] => []
  | c :: cs => yieldT c ++ yieldL cs

end

/-- The frontier of a CKY output tree. -/
def yieldC : CKY.CTree → List String
  | .leaf _ w => [w]
  | .unit _ c => yieldC c
  | .bin _ l r => yieldC l ++ yieldC r

/-- The label of the tree's root node (none for a bare word). -/
def rootLabel : Tree → Option String
  | .word _ => none
  | .leaf nt _ => some nt
  | .node nt _ => some nt

mutual

/-- No node anywhere in the tree carries an auxiliary label. -/
def auxFree (cfg : TCConfig) : Tree → Bool
  | .word _ => true
  | .leaf a _ => !isAuxiliary cfg a
  | .node a cs => !isAuxiliary cfg a && auxFreeL cfg cs

/-- Every tree in the list is free of auxiliary labels. -/
def auxFreeL (cfg : TCConfig) : List Tree → Bool
  | [] => true
  | c :: cs => auxFree cfg c && auxFreeL cfg cs

end

/-- No node other than (possibly) the root carries an auxiliary label. -/
def belowRootAuxFree (cfg : TCConfig) : Tree → Bool
  | .word _ => true
  | .leaf _ _ => true
  | .node _ cs => auxFreeL cfg cs

mutual

/-- Well-formedness of the trees the converter receives and produces:
no internal node has an empty child list (`_build_trees` never produces
one, and `_convert_node` preserves the property). -/
def good : Tree → Bool
  | .word _ => true
  | .leaf _ _ => true
  | .node _ cs => !cs.isEmpty && goodL cs

/-- Every tree in the list satisfies `good`. -/
def goodL : List Tree → Bool
  | [] => true
  | c :: cs => good c && goodL cs

end

mutual

/-- The tree contains `(nt, w)` as a leaf node. -/
def containsLeaf (nt w : String) : Tree → Bool
  | .word _ => false
  | .leaf a b => a == nt && b == w
  | .node _ cs => containsLeafL nt w cs

/-- Some tree in the list contains `(nt, w)` as a leaf node. -/
def containsLeafL (nt w : String) : List Tree → Bool
  | [] => false
  | c :: cs => containsLeaf nt w c || containsLeafL nt w cs

end

end TreeConv


namespace Examples

/-- A one-rule grammar accepting exactly the token `a`. -/
def gUnit : CKY.LoadedGrammar := { grammar := [("A", [["a"]])], start := "A" }

/-- A small CNF grammar: `S -> A B`, `A -> a`, `B -> b`. -/
def gAB : CKY.LoadedGrammar :=
  { grammar := [("S", [["A", "B"]]), ("A", [["a"]]), ("B", [["b"]])],
    start := "S" }

/-- A well-formed CFG (`S -> a T0`) one of whose terminals is the name
`T0` that `_generate_new_variable` will also produce. -/
def collideG : CKY.Rules := [("S", [["a", "T0"]])]

/-- What `convert_to_cnf` produces on `collideG` (established by `rfl`
in the C1 theorem): the terminal `T0` of the input grammar has been
shadowed by the fresh non-terminal `T0`. -/
def collideCNFg : CKY.Rules :=
  [("T0", [["a"]]), ("T1", [["T0"]]), ("S", [["T0", "T1"]])]

/-- A well-formed CFG (`S -> S a | S0 | ε`) one of whose terminals is
the name `S0` that `_step1_add_new_start_symbol` will produce as the
fresh start symbol. -/
def collideG5 : CKY.Rules := [("S", [["S", "a"], ["S0"], ["ε"]])]

end Examples

section DerStrLemmas

open CKY

theorem isNonterminal_of_hasRule {g : Rules} {A : String} {p : Production}
    (h : HasRule g A p) : isNonterminal g A = true := by
  obtain ⟨ps, hmem, -⟩ := h
  simp only [isNonterminal, List.any_eq_true]
  exact ⟨(A, ps), hmem, by simp⟩

theorem derStr_nil {g : Rules} {w : List String} (h : DerStr g [] w) :
    w = [] := by
  cases h
  rfl

theorem derStr_append {g : Rules} {xs ys u v : List String}
    (h1 : DerStr g xs u) (h2 : DerStr g ys v) :
    DerStr g (xs ++ ys) (u ++ v) := by
  induction h1 with
  | nil => simpa using h2
  | term ht _ ih => exact .term ht ih
  | rule hr _ ih => exact .rule hr (by simpa [List.append_assoc] using ih)

theorem derStr_split {g : Rules} {zs w : List String} (h : DerStr g zs w) :
    ∀ xs ys, zs = xs ++ ys →
      ∃ u v, w = u ++ v ∧ DerStr g xs u ∧ DerStr g ys v := by
  induction h with
  | nil =>
    intro xs ys he
    obtain ⟨rfl, rfl⟩ := List.append_eq_nil.mp he.symm
    exact ⟨[], [], rfl, .nil, .nil⟩
  | @term s rest w' ht hrest ih =>
    intro xs ys he
    cases xs with
    | nil =>
      subst he
      exact ⟨[], s :: w', rfl, .nil, .term ht hrest⟩
    | cons x xs' =>
      simp only [List.cons_append] at he
      injection he with h1 h2
      subst h1
      obtain ⟨u, v, rfl, hu, hv⟩ := ih xs' ys h2
      exact ⟨s :: u, v, rfl, .term ht hu, hv⟩
  | @rule A p rest w' hr hder ih =>
    intro xs ys he
    cases xs with
    | nil =>
      subst he
      exact ⟨[], w', rfl, .nil, .rule hr hder⟩
    | cons x xs' =>
      simp only [List.cons_append] at he
      injection he with h1 h2
      subst h1
      obtain ⟨u, v, rfl, hu, hv⟩ :=
        ih (p ++ xs') ys (by rw [h2, List.append_assoc])
      exact ⟨u, v, rfl, .rule hr hu, hv⟩

theorem derStr_length {g : Rules}
    (hne : ∀ A p, HasRule g A p → p ≠ []) {xs w : List String}
    (h : DerStr g xs w) : xs.length ≤ w.length := by
  induction h with
  | nil => exact le_refl 0
  | term _ _ ih => simpa using Nat.succ_le_succ ih
  | @rule A p rest w' hr _ ih =>
    have hp : 1 ≤ p.length := by
      have := hne A p hr
      cases p with
      | nil => exact absurd rfl this
      | cons _ _ => simp
    simp only [List.length_append] at ih
    simp only [List.length_cons]
    omega

theorem derStr_term_singleton {g : Rules} {t : String} {w : List String}
    (ht : isNonterminal g t = false) (h : DerStr g [t] w) : w = [t] := by
  cases h with
  | term _ hrest => rw [derStr_nil hrest]
  | rule hr _ => rw [isNonterminal_of_hasRule hr] at ht; cases ht

theorem derStr_cons_inv {g : Rules} {A : String} {rest w : List String}
    (h : DerStr g (A :: rest) w) :
    (isNonterminal g A = false ∧ ∃ w', w = A :: w' ∧ DerStr g rest w') ∨
      ∃ p, HasRule g A p ∧ DerStr g (p ++ rest) w := by
  cases h with
  | term ht hrest => exact .inl ⟨ht, _, rfl, hrest⟩
  | rule hr hd => exact .inr ⟨_, hr, hd⟩

end DerStrLemmas

/-- **C10.** For every non-empty token sequence, calling `parse` with an
empty POS-constraint list behaves exactly like calling it with no
constraints at all: the empty list is falsy in Python, so the
length-mismatch guard is not triggered (even though `len([]) ≠ n`) and
the diagonal is initialised from the grammar's lexical terminal rules
instead of the constraints. -/
theorem parse_empty_constraints_like_none (g : CKY.LoadedGrammar)
    (toks : List String) (hne : toks ≠ []) :
    CKY.parse g toks (some []) = CKY.parse g toks none := rfl

/-- Witness for `parse_empty_constraints_like_none` at a concrete
non-empty sentence. -/
theorem parse_empty_constraints_like_none_witness :
    (["a"] : List String) ≠ [] ∧
      CKY.parse Examples.gUnit ["a"] (some []) =
        CKY.parse Examples.gUnit ["a"] none :=
  ⟨by decide,
   parse_empty_constraints_like_none Examples.gUnit ["a"] (by decide)⟩

/-- **C6 (counterexample).** The claim says `parse` returns
`(false, ∅)` whenever a provided POS-constraint sequence differs in
length from the token sequence.  The empty constraint list is a provided
sequence whose length `0` differs from `n = 1`, yet the parse of `["a"]`
under the grammar `A -> a` succeeds with a tree. -/
theorem parse_mismatch_counterexample :
    ([] : List String).length ≠ (["a"] : List String).length ∧
      CKY.parse Examples.gUnit ["a"] (some []) =
        (true, some [CKY.CTree.leaf "A" "a"]) := by decide

/-- **C5 (code bug).** The CNF validity predicate is `false` on the
pipeline's output for the well-formed input CFG `S -> S a | S0 | ε`:
`_generate_new_variable` checks name collisions only against the
non-terminal set, so Step 1 introduces the new start symbol `S0` even
though `S0` is already a terminal of the grammar.  The terminal `S0`
then behaves as a nullable non-terminal in Steps 2–3, the non-unit
production `S0 -> ε` is copied to `S` through the unit pair `(S, S0)`,
and the final grammar carries `S -> ε` on a non-start symbol, which
`is_valid_cnf` rejects. -/
theorem is_valid_cnf_false_on_collision :
    CNFConv.isValidCnf
      (CNFConv.convertToCnf (CNFConv.parseGrammar Examples.collideG5 "S")) =
      false := by decide

theorem collide_derives_T0 {w : List String}
    (h : CKY.DerStr Examples.collideCNFg ["T0"] w) : w = ["a"] := by
  rcases derStr_cons_inv h with ⟨ht, -⟩ | ⟨p, hr, hd⟩
  · exact absurd ht (by decide)
  · obtain ⟨ps, hmem, hp⟩ := hr
    simp only [Examples.collideCNFg, List.mem_cons, List.not_mem_nil,
      or_false, Prod.mk.injEq] at hmem
    rcases hmem with ⟨-, rfl⟩ | ⟨h1, -⟩ | ⟨h1, -⟩
    · simp only [List.mem_cons, List.not_mem_nil, or_false] at hp
      subst hp
      have hd' : CKY.DerStr Examples.collideCNFg ["a"] w := by simpa using hd
      exact derStr_term_singleton (by decide) hd'
    · exact absurd h1 (by decide)
    · exact absurd h1 (by decide)

theorem collide_derives_T1 {w : List String}
    (h : CKY.DerStr Examples.collideCNFg ["T1"] w) : w = ["a"] := by
  rcases derStr_cons_inv h with ⟨ht, -⟩ | ⟨p, hr, hd⟩
  · exact absurd ht (by decide)
  · obtain ⟨ps, hmem, hp⟩ := hr
    simp only [Examples.collideCNFg, List.mem_cons, List.not_mem_nil,
      or_false, Prod.mk.injEq] at hmem
    rcases hmem with ⟨h1, -⟩ | ⟨-, rfl⟩ | ⟨h1, -⟩
    · exact absurd h1 (by decide)
    · simp only [List.mem_cons, List.not_mem_nil, or_false] at hp
      subst hp
      exact collide_derives_T0 (by simpa using hd)
    · exact absurd h1 (by decide)

/-- **C1 (code bug).** Language preservation fails for the five-step
pipeline on the well-formed CFG `S -> a T0` (whose terminal `T0`
collides with the fresh names Step 4 generates): the original grammar
derives exactly the word `a T0`, the converted grammar is
`T0 -> a, T1 -> T0, S -> T0 T1` in which the original terminal `T0` has
been shadowed by a fresh non-terminal, and the converted grammar cannot
derive `a T0` (it derives only `a a`). -/
theorem cnf_conversion_not_language_preserving :
    CKY.DerStr (CNFConv.semGrammar Examples.collideG) ["S"] ["a", "T0"] ∧
      (CNFConv.convertToCnf
          (CNFConv.parseGrammar Examples.collideG "S")).grammar =
        Examples.collideCNFg ∧
      (CNFConv.convertToCnf
          (CNFConv.parseGrammar Examples.collideG "S")).start = "S" ∧
      ¬ CKY.DerStr (CNFConv.semGrammar Examples.collideCNFg) ["S"]
          ["a", "T0"] := by
  refine ⟨?_, by decide, by decide, ?_⟩
  · apply CKY.DerStr.rule (p := ["a", "T0"])
    · exact ⟨[["a", "T0"]], by simp [CNFConv.semGrammar, Examples.collideG],
        by simp⟩
    · exact .term (by decide) (.term (by decide) .nil)
  · rw [show CNFConv.semGrammar Examples.collideCNFg = Examples.collideCNFg
      from rfl]
    intro h
    rcases derStr_cons_inv h with ⟨ht, -⟩ | ⟨p, hr, hd⟩
    · exact absurd ht (by decide)
    · obtain ⟨ps, hmem, hp⟩ := hr
      simp only [Examples.collideCNFg, List.mem_cons, List.not_mem_nil,
        or_false, Prod.mk.injEq] at hmem
      rcases hmem with ⟨h1, -⟩ | ⟨h1, -⟩ | ⟨-, rfl⟩
      · exact absurd h1 (by decide)
      · exact absurd h1 (by decide)
      · simp only [List.mem_cons, List.not_mem_nil, or_false] at hp
        subst hp
        have hd' : CKY.DerStr Examples.collideCNFg (["T0"] ++ ["T1"])
            ["a", "T0"] := by simpa using hd
        obtain ⟨u, v, huv, hu, hv⟩ := derStr_split hd' ["T0"] ["T1"] rfl
        rw [collide_derives_T0 hu, collide_derives_T1 hv] at huv
        exact absurd huv (by decide)

/-- **C7 (counterexample).** The claim says the check with a VBZ verb
accepts *exactly* when the subject is third-person singular or its
number or person is `any`.  But `_check_subject_verb_agreement` returns
OK for a first-person-singular subject (neither 3sg nor `any`) when the
verb's `tense` feature is `past`, because the past-tense bypass precedes
the VBZ branch. -/
theorem sva_past_tense_counterexample :
    Agreement.checkSubjectVerbAgreement
        { person := some "1", num := some "sg" }
        { head_pos := some "VBZ", tense := some "past" } = (true, none) ∧
      Agreement.pyOr (some "VBZ") none = some "VBZ" ∧
      ¬(("1" = "3" ∧ "sg" = "sg") ∨ "1" = "any" ∨ "sg" = "any") := by
  decide

/-- **C7 (amended).** Provided the verb's `tense` feature is not
`past`, `_check_subject_verb_agreement` behaves exactly as claimed:
with a VBZ verb (the POS being `head_pos`, falling back to `pos`) it
accepts iff the subject is third-person singular or its number or
person is `any`, and emits an error otherwise; with a VBP verb it
rejects (emitting an error) iff the subject is third-person singular;
any other verb form imposes no check. -/
theorem sva_characterization (np vp : Agreement.Features)
    (ht : vp.tense.getD "any" ≠ "past") :
    (Agreement.pyOr vp.head_pos vp.pos = some "VBZ" →
      ((Agreement.checkSubjectVerbAgreement np vp).1 = true ↔
        ((np.person.getD "any" = "3" ∧ np.num.getD "any" = "sg") ∨
          np.person.getD "any" = "any" ∨ np.num.getD "any" = "any")) ∧
      ((Agreement.checkSubjectVerbAgreement np vp).2 ≠ none ↔
        ¬((np.person.getD "any" = "3" ∧ np.num.getD "any" = "sg") ∨
          np.person.getD "any" = "any" ∨ np.num.getD "any" = "any"))) ∧
    (Agreement.pyOr vp.head_pos vp.pos = some "VBP" →
      ((Agreement.checkSubjectVerbAgreement np vp).1 = false ↔
        (np.person.getD "any" = "3" ∧ np.num.getD "any" = "sg")) ∧
      ((Agreement.checkSubjectVerbAgreement np vp).2 ≠ none ↔
        (np.person.getD "any" = "3" ∧ np.num.getD "any" = "sg"))) ∧
    (Agreement.pyOr vp.head_pos vp.pos ≠ some "VBZ" →
      Agreement.pyOr vp.head_pos vp.pos ≠ some "VBP" →
      Agreement.checkSubjectVerbAgreement np vp = (true, none)) := by
  unfold Agreement.checkSubjectVerbAgreement
  simp only [if_neg ht]
  refine ⟨fun hz => ?_, fun hp => ?_, fun hz hp => ?_⟩
  · rw [if_pos hz]
    by_cases h3 : np.person.getD "any" = "3" ∧ np.num.getD "any" = "sg"
    · simp [h3, if_pos h3]
    · rw [if_neg h3]
      by_cases ha : np.person.getD "any" = "any" ∨ np.num.getD "any" = "any"
      · simp [ha, h3, if_pos ha]
      · simp [ha, h3, if_neg ha]
  · have hz : Agreement.pyOr vp.head_pos vp.pos ≠ some "VBZ" := by
      rw [hp]; decide
    rw [if_neg hz, if_pos hp]
    by_cases h3 : np.person.getD "any" = "3" ∧ np.num.getD "any" = "sg"
    · simp [h3, if_pos h3]
    · simp [h3, if_neg h3]
  · rw [if_neg hz, if_neg hp]

/-- Witness for `sva_characterization`: a first-person-singular subject
with a present-tense VBZ verb is rejected with an error. -/
theorem sva_characterization_witness :
    (Agreement.checkSubjectVerbAgreement
        { person := some "1", num := some "sg" }
        { pos := some "VBZ", tense := some "pres" }).1 = false ∧
      (Agreement.checkSubjectVerbAgreement
        { person := some "1", num := some "sg" }
        { pos := some "VBZ", tense := some "pres" }).2 ≠ none := by
  have h := sva_characterization
    { person := some "1", num := some "sg" }
    { pos := some "VBZ", tense := some "pres" } (by decide)
  obtain ⟨hz, -, -⟩ := h
  obtain ⟨h1, h2⟩ := hz (by decide)
  constructor
  · exact Bool.eq_false_iff.mpr fun htrue => absurd (h1.mp htrue) (by decide)
  · exact h2.mpr (by decide)

section TreeConvLemmas

open TreeConv

theorem yieldL_append (xs ys : List Tree) :
    yieldL (xs ++ ys) = yieldL xs ++ yieldL ys := by
  induction xs with
  | nil => rfl
  | cons c cs ih => simp [yieldL, ih]

theorem auxFreeL_append (cfg : TCConfig) (xs ys : List Tree) :
    auxFreeL cfg (xs ++ ys) = (auxFreeL cfg xs && auxFreeL cfg ys) := by
  induction xs with
  | nil => rfl
  | cons c cs ih => simp [auxFreeL, ih, Bool.and_assoc]

theorem goodL_append (xs ys : List Tree) :
    goodL (xs ++ ys) = (goodL xs && goodL ys) := by
  induction xs with
  | nil => rfl
  | cons c cs ih => simp [goodL, ih, Bool.and_assoc]

theorem yieldL_spliceChild (cfg : TCConfig) (c : Tree) :
    yieldL (spliceChild cfg c) = yieldT c := by
  cases c with
  | word w => simp [spliceChild, yieldL, yieldT]
  | leaf a w =>
    by_cases h : isAuxiliary cfg a = true <;>
      simp [spliceChild, h, yieldL, yieldT]
  | node a cs =>
    by_cases h : (!cs.isEmpty && isAuxiliary cfg a) = true <;>
      simp [spliceChild, h, yieldL, yieldT]

theorem spliceChild_ne_nil (cfg : TCConfig) (c : Tree)
    (hg : good c = true) : spliceChild cfg c ≠ [] := by
  cases c with
  | word w => simp [spliceChild]
  | leaf a w =>
    by_cases h : isAuxiliary cfg a = true <;> simp [spliceChild, h]
  | node a cs =>
    by_cases h : (!cs.isEmpty && isAuxiliary cfg a) = true
    · simp only [spliceChild, h, if_pos]
      simp only [good, Bool.and_eq_true, Bool.not_eq_true'] at hg
      exact List.ne_nil_of_length_pos (by
        cases cs with
        | nil => cases hg.1
        | cons _ _ => simp)
    · simp [spliceChild, h]

theorem goodL_spliceChild (cfg : TCConfig) (c : Tree)
    (hg : good c = true) : goodL (spliceChild cfg c) = true := by
  cases c with
  | word w => simp [spliceChild, goodL, good]
  | leaf a w =>
    by_cases h : isAuxiliary cfg a = true <;>
      simp [spliceChild, h, goodL, good]
  | node a cs =>
    simp only [good, Bool.and_eq_true] at hg
    by_cases h : isAuxiliary cfg a = true
    · simp [spliceChild, hg.1, h, hg.2]
    · simp [spliceChild, h, goodL, good, hg.1, hg.2]

theorem auxFreeL_spliceChild (cfg : TCConfig) (c : Tree)
    (hg : good c = true) (hb : belowRootAuxFree cfg c = true) :
    auxFreeL cfg (spliceChild cfg c) = true := by
  cases c with
  | word w => simp [spliceChild, auxFreeL, auxFree]
  | leaf a w =>
    by_cases h : isAuxiliary cfg a = true <;>
      simp [spliceChild, h, auxFreeL, auxFree]
  | node a cs =>
    simp only [good, Bool.and_eq_true, Bool.not_eq_true'] at hg
    simp only [belowRootAuxFree] at hb
    by_cases h : isAuxiliary cfg a = true
    · have hne : cs.isEmpty = false := hg.1
      simp only [spliceChild, hne, h, Bool.not_false, Bool.and_self, if_pos]
      exact hb
    · simp only [h, Bool.and_false, spliceChild]
      simp only [Bool.not_eq_true] at h
      simp [h, auxFreeL, auxFree, hb]

mutual

theorem convert_good (cfg : TCConfig) :
    ∀ t : Tree, good t = true → good (convertNode cfg t) = true
  | .word _, _ => rfl
  | .leaf _ _, _ => rfl
  | .node nt cs, hg => by
    simp only [good, Bool.and_eq_true, Bool.not_eq_true'] at hg
    have h1 := convert_goodL cfg cs hg.2
    have h2 : convertChildren cfg cs ≠ [] := by
      cases cs with
      | nil => cases hg.1
      | cons c cs' =>
        simp only [convertChildren]
        intro hnil
        rcases List.append_eq_nil.mp hnil with ⟨hl, -⟩
        exact spliceChild_ne_nil cfg _
          (convert_good cfg c (by
            simp only [goodL, Bool.and_eq_true] at hg
            exact hg.2.1)) hl
    simp only [convertNode, good, Bool.and_eq_true, Bool.not_eq_true']
    exact ⟨List.isEmpty_eq_false_iff_exists_mem.mpr
      (by cases hcc : convertChildren cfg cs with
          | nil => exact absurd hcc h2
          | cons x xs => exact ⟨x, by simp [hcc]⟩), h1⟩

theorem convert_goodL (cfg : TCConfig) :
    ∀ cs : List Tree, goodL cs = true →
      goodL (convertChildren cfg cs) = true
  | [], _ => rfl
  | c :: cs, hg => by
    simp only [goodL, Bool.and_eq_true] at hg
    simp only [convertChildren, goodL_append, Bool.and_eq_true]
    exact ⟨goodL_spliceChild cfg _ (convert_good cfg c hg.1),
      convert_goodL cfg cs hg.2⟩

end

mutual

theorem convert_yieldT (cfg : TCConfig) :
    ∀ t : Tree, yieldT (convertNode cfg t) = yieldT t
  | .word _ => rfl
  | .leaf _ _ => rfl
  | .node nt cs => by
    simp only [convertNode, yieldT]
    exact convert_yieldL cfg cs

theorem convert_yieldL (cfg : TCConfig) :
    ∀ cs : List Tree, yieldL (convertChildren cfg cs) = yieldL cs
  | [] => rfl
  | c :: cs => by
    simp only [convertChildren, yieldL_append, yieldL]
    rw [yieldL_spliceChild, convert_yieldT cfg c, convert_yieldL cfg cs]

end

mutual

theorem convert_belowRootAuxFree (cfg : TCConfig) :
    ∀ t : Tree, good t = true →
      belowRootAuxFree cfg (convertNode cfg t) = true
  | .word _, _ => rfl
  | .leaf _ _, _ => rfl
  | .node nt cs, hg => by
    simp only [good, Bool.and_eq_true] at hg
    simp only [convertNode, belowRootAuxFree]
    exact convert_auxFreeL cfg cs hg.2

theorem convert_auxFreeL (cfg : TCConfig) :
    ∀ cs : List Tree, goodL cs = true →
      auxFreeL cfg (convertChildren cfg cs) = true
  | [], _ => rfl
  | c :: cs, hg => by
    simp only [goodL, Bool.and_eq_true] at hg
    simp only [convertChildren, auxFreeL_append, Bool.and_eq_true]
    exact ⟨auxFreeL_spliceChild cfg _ (convert_good cfg c hg.1)
        (convert_belowRootAuxFree cfg c hg.1),
      convert_auxFreeL cfg cs hg.2⟩

end

theorem embedC_good : ∀ t : CKY.CTree, good (embedC t) = true
  | .leaf _ _ => rfl
  | .unit nt c => by simp [embedC, good, goodL, embedC_good c]
  | .bin nt l r => by
    simp [embedC, good, goodL, embedC_good l, embedC_good r]

theorem yieldT_embedC : ∀ t : CKY.CTree, yieldT (embedC t) = yieldC t
  | .leaf _ _ => rfl
  | .unit nt c => by simp [embedC, yieldT, yieldL, yieldC, yieldT_embedC c]
  | .bin nt l r => by
    simp [embedC, yieldT, yieldL, yieldC, yieldT_embedC l, yieldT_embedC r]

theorem convert_rootLabel (cfg : TCConfig) (t : Tree) :
    rootLabel (convertNode cfg t) = rootLabel t := by
  cases t <;> rfl

end TreeConvLemmas

/-- **C9 (counterexample).** The claim says terminal leaves are
preserved unchanged.  But `_convert_node`'s splice test
(`len(converted_child) > 1`) also matches a leaf tuple `(nt, word)`, so
an auxiliary-labelled leaf such as `('T0', 'the')` is elided and its
bare word spliced into the parent's child list: the default-configured
converter maps `('S', ('T0', 'the'), ('NN', 'cat'))` to
`('S', 'the', ('NN', 'cat'))`, which no longer contains the leaf. -/
theorem aux_leaf_not_preserved :
    TreeConv.convertNode {} (TreeConv.embedC
        (CKY.CTree.bin "S" (.leaf "T0" "the") (.leaf "NN" "cat"))) =
      .node "S" [.word "the", .leaf "NN" "cat"] ∧
      TreeConv.containsLeaf "T0" "the" (TreeConv.embedC
        (CKY.CTree.bin "S" (.leaf "T0" "the") (.leaf "NN" "cat"))) = true ∧
      TreeConv.containsLeaf "T0" "the"
        (TreeConv.convertNode {} (TreeConv.embedC
          (CKY.CTree.bin "S" (.leaf "T0" "the") (.leaf "NN" "cat")))) =
        false :=
  ⟨by with_unfolding_all rfl, by with_unfolding_all decide,
   by with_unfolding_all decide⟩

/-- **C9 (amended).** For every CNF parse tree (as produced by the CKY
parser) and every converter configuration, `convert` returns a tree in
which every node with an auxiliary label — internal or leaf — has been
elided (an internal node's children, or a leaf's bare word, spliced
into its parent's child list), the root retains its label even when
auxiliary, no node of the result other than possibly the root carries
an auxiliary label, and the word frontier is preserved. -/
theorem convert_flattening (cfg : TreeConv.TCConfig) (t : CKY.CTree) :
    TreeConv.rootLabel (TreeConv.convertNode cfg (TreeConv.embedC t)) =
        TreeConv.rootLabel (TreeConv.embedC t) ∧
      TreeConv.belowRootAuxFree cfg
        (TreeConv.convertNode cfg (TreeConv.embedC t)) = true ∧
      TreeConv.yieldT (TreeConv.convertNode cfg (TreeConv.embedC t)) =
        TreeConv.yieldC t :=
  ⟨convert_rootLabel cfg (TreeConv.embedC t),
   convert_belowRootAuxFree cfg (TreeConv.embedC t) (embedC_good t),
   (convert_yieldT cfg (TreeConv.embedC t)).trans (yieldT_embedC t)⟩

theorem findIdx?_lt_length_aux {α : Type} {p : α → Bool} :
    ∀ (l : List α) (s i : Nat), List.findIdx? p l s = some i →
      i < s + l.length := by
  intro l
  induction l with
  | nil => intro s i h; simp [List.findIdx?] at h
  | cons x xs ih =>
    intro s i h
    rw [List.findIdx?_cons] at h
    by_cases hp : p x = true
    · rw [if_pos hp] at h
      injection h with h
      subst h
      simp only [List.length_cons]
      omega
    · rw [if_neg hp] at h
      have := ih (s + 1) i h
      simp only [List.length_cons]
      omega

theorem findIdx?_lt_length {α : Type} {p : α → Bool} {l : List α}
    {i : Nat} (h : l.findIdx? p = some i) : i < l.length := by
  simpa using findIdx?_lt_length_aux l 0 i h

theorem hasNP_iff (l : List String) :
    Agreement.hasNP l = true ↔
      ∃ h rest, l = h :: rest ∧
        h ∈ ["DT", "PRP", "NNP", "NNPS", "CD", "PRP$", "NN", "NNS"] := by
  cases l with
  | nil => simp [Agreement.hasNP]
  | cons h rest =>
    simp only [Agreement.hasNP, Bool.or_eq_true, List.elem_iff,
      beq_iff_eq, List.contains_eq_any_beq, List.any_eq_true]
    constructor
    · rintro ((⟨x, hx, rfl⟩ | rfl) | rfl)
      · refine ⟨_, _, rfl, ?_⟩
        simp only [List.mem_cons, List.not_mem_nil, or_false] at hx ⊢
        tauto
      · exact ⟨_, _, rfl, by simp⟩
      · exact ⟨_, _, rfl, by simp⟩
    · rintro ⟨h', rest', heq, hm⟩
      injection heq with h1 h2
      subst h1
      simp only [List.mem_cons, List.not_mem_nil, or_false] at hm
      rcases hm with rfl | rfl | rfl | rfl | rfl | rfl | rfl | rfl <;> simp

theorem hasPP_iff (l : List String) :
    Agreement.hasPP l = true ↔
      ∃ i, l.getD i "" = "IN" ∧ i + 1 < l.length := by
  induction l with
  | nil => simp [Agreement.hasPP]
  | cons x xs ih =>
    cases xs with
    | nil =>
      simp only [Agreement.hasPP, List.length_cons, List.length_nil]
      constructor
      · intro h; cases h
      · rintro ⟨i, -, hlt⟩; omega
    | cons y ys =>
      simp only [Agreement.hasPP, Bool.or_eq_true, beq_iff_eq] at *
      constructor
      · rintro (rfl | h)
        · exact ⟨0, rfl, by simp⟩
        · obtain ⟨i, hi, hlt⟩ := ih.mp h
          exact ⟨i + 1, hi, by simpa using Nat.succ_lt_succ hlt⟩
      · rintro ⟨i, hi, hlt⟩
        cases i with
        | zero => exact .inl hi
        | succ i' =>
          refine .inr (ih.mpr ⟨i', hi, ?_⟩)
          simpa using Nat.lt_of_succ_lt_succ hlt

/-- **C8.** For every POS sequence and feature sequence, the
subcategorization check on the first VB* verb, when its lemma is in the
subcategorization map: `has NP` holds exactly when the first token after
the verb is in {DT, PRP, NNP, NNPS, CD, PRP$, NN, NNS}; `has PP` holds
exactly when some IN with at least one following token occurs after the
verb; and the emitted error list is exactly: the "requires a preposition
with its object" error iff has-NP, not has-PP and `requires_pp`; the
"does not take a direct object" error iff has-NP, not has-PP, not
`requires_pp` and `allows_np` false; the "requires a prepositional
phrase" error iff `requires_pp`, neither NP nor PP, and at least one
token follows the verb. -/
theorem subcat_characterization (posTags : List String)
    (feats : List Agreement.Features)
    (subcat : List (String × Agreement.SubcatInfo)) (v : Nat)
    (entry : String × Agreement.SubcatInfo)
    (hv : posTags.findIdx? (fun p => Agreement.verbTags.contains p) = some v)
    (he : subcat.find? (fun e =>
        e.1 == ((feats.getD v default).lemmaVal.getD "").toLower) =
      some entry) :
    (Agreement.hasNP (posTags.drop (v + 1)) = true ↔
      ∃ h rest, posTags.drop (v + 1) = h :: rest ∧
        h ∈ ["DT", "PRP", "NNP", "NNPS", "CD", "PRP$", "NN", "NNS"]) ∧
    (Agreement.hasPP (posTags.drop (v + 1)) = true ↔
      ∃ i, (posTags.drop (v + 1)).getD i "" = "IN" ∧
        i + 1 < (posTags.drop (v + 1)).length) ∧
    Agreement.checkVerbSubcat posTags feats subcat =
      (let lem := ((feats.getD v default).lemmaVal.getD "").toLower
       let np := Agreement.hasNP (posTags.drop (v + 1))
       let pp := Agreement.hasPP (posTags.drop (v + 1))
       if np ∧ ¬pp ∧ Agreement.requiresPP entry.2 then
         [s!"Verb {lem} requires a preposition with its object"]
       else if np ∧ ¬pp ∧ ¬Agreement.requiresPP entry.2 ∧
           ¬Agreement.allowsNP entry.2 then
         [s!"Verb {lem} does not take a direct object (NP)"]
       else if Agreement.requiresPP entry.2 ∧ ¬np ∧ ¬pp ∧
           v + 1 < posTags.length then
         [s!"Verb {lem} requires a prepositional phrase"]
       else []) := by
  refine ⟨hasNP_iff _, hasPP_iff _, ?_⟩
  have hvlen : v < posTags.length := findIdx?_lt_length hv
  unfold Agreement.checkVerbSubcat
  simp only [hv]
  simp only [he]
  have hlen1 : v < posTags.length - 1 ↔ v + 1 < posTags.length := by omega
  by_cases hnp : Agreement.hasNP (posTags.drop (v + 1)) = true <;>
    by_cases hpp : Agreement.hasPP (posTags.drop (v + 1)) = true <;>
    by_cases hr : Agreement.requiresPP entry.2 = true <;>
    by_cases ha : Agreement.allowsNP entry.2 = true <;>
    by_cases hl : v + 1 < posTags.length <;>
    simp_all [hlen1] <;> rw [if_neg (by omega), if_neg (by omega)]

/-- Witness for `subcat_characterization`: in the POS sequence of
`I went the school` with the entry `go = {allows_np: false,
requires_pp: true}`, the check reports the preposition error. -/
theorem subcat_characterization_witness :
    Agreement.checkVerbSubcat ["PRP", "VBD", "DT", "NN"]
      [{}, { lemmaVal := some "go" }, {}, {}]
      [("go", .dictForm (some false) (some true) ["intransitive"])] =
      ["Verb go requires a preposition with its object"] := by
  have h := subcat_characterization ["PRP", "VBD", "DT", "NN"]
    [{}, { lemmaVal := some "go" }, {}, {}]
    [("go", .dictForm (some false) (some true) ["intransitive"])] 1
    ("go", Agreement.SubcatInfo.dictForm (some false) (some true)
      ["intransitive"])
    (by decide) (by with_unfolding_all decide)
  rw [h.2.2]
  with_unfolding_all decide

section ChartLemmas

open CKY

theorem flatMap_congr {α β : Type} {l : List α} {f g : α → List β}
    (h : ∀ a ∈ l, f a = g a) : l.flatMap f = l.flatMap g := by
  induction l with
  | nil => rfl
  | cons x xs ih =>
    simp only [List.flatMap_cons]
    rw [h x (by simp), ih fun a ha => h a (by simp [ha])]

theorem mem_addUnique {acc xs : List String} {x : String} :
    x ∈ addUnique acc xs ↔ x ∈ acc ∨ x ∈ xs := by
  induction xs generalizing acc with
  | nil => simp [addUnique]
  | cons y ys ih =>
    show x ∈ addUnique (if y ∈ acc then acc else acc ++ [y]) ys ↔ _
    rw [ih]
    by_cases hy : y ∈ acc
    · simp only [if_pos hy, List.mem_cons]
      constructor
      · rintro (h | h)
        · exact .inl h
        · exact .inr (.inr h)
      · rintro (h | rfl | h)
        · exact .inl h
        · exact .inl hy
        · exact .inr h
    · simp only [if_neg hy, List.mem_append, List.mem_singleton,
        List.mem_cons]
      tauto

theorem mem_terminalRules {g : Rules} {t A : String} :
    A ∈ terminalRules g t ↔ HasRule g A [t] := by
  simp only [terminalRules, List.mem_flatMap, List.mem_filterMap, HasRule]
  constructor
  · rintro ⟨⟨nt, ps⟩, hmem, p, hp, hif⟩
    by_cases hpt : p = [t]
    · rw [if_pos hpt] at hif
      injection hif with hif
      subst hif
      exact ⟨ps, hmem, hpt ▸ hp⟩
    · rw [if_neg hpt] at hif
      cases hif
  · rintro ⟨ps, hmem, hp⟩
    exact ⟨(A, ps), hmem, [t], hp, by simp⟩

theorem mem_binaryRules {g : Rules} {b c A : String} :
    A ∈ binaryRules g b c ↔ HasRule g A [b, c] := by
  simp only [binaryRules, List.mem_flatMap, List.mem_filterMap, HasRule]
  constructor
  · rintro ⟨⟨nt, ps⟩, hmem, p, hp, hif⟩
    by_cases hpt : p = [b, c]
    · rw [if_pos hpt] at hif
      injection hif with hif
      subst hif
      exact ⟨ps, hmem, hpt ▸ hp⟩
    · rw [if_neg hpt] at hif
      cases hif
  · rintro ⟨ps, hmem, hp⟩
    exact ⟨(A, ps), hmem, [b, c], hp, by simp⟩

theorem cell_diag (g : Rules) (diag : Nat → List String) (fuel i j : Nat)
    (hij : j ≤ i) : cell g diag fuel i j = diag i := by
  cases fuel <;> simp [cell, hij]

theorem cell_span (g : Rules) (diag : Nat → List String) (f i j : Nat)
    (hij : i < j) :
    cell g diag (f + 1) i j =
      addUnique []
        ((List.range' i (j - i)).flatMap fun k =>
          (cell g diag f i k).flatMap fun b =>
            (cell g diag f (k + 1) j).flatMap fun c =>
              binaryRules g b c) := by
  simp [cell, Nat.not_le.mpr hij]

theorem cell_span_mem {g : Rules} {diag : Nat → List String}
    {f i j : Nat} {A : String} (hij : i < j) :
    A ∈ cell g diag (f + 1) i j ↔
      ∃ k, i ≤ k ∧ k < j ∧ ∃ b c, b ∈ cell g diag f i k ∧
        c ∈ cell g diag f (k + 1) j ∧ HasRule g A [b, c] := by
  rw [cell_span g diag f i j hij, mem_addUnique]
  simp only [List.not_mem_nil, false_or, List.mem_flatMap,
    List.mem_range'_1]
  constructor
  · rintro ⟨k, ⟨hk1, hk2⟩, b, hb, c, hc, ha⟩
    exact ⟨k, hk1, by omega, b, c, hb, hc, mem_binaryRules.mp ha⟩
  · rintro ⟨k, hk1, hk2, b, c, hb, hc, ha⟩
    exact ⟨k, ⟨hk1, by omega⟩, b, hb, c, hc, mem_binaryRules.mpr ha⟩

theorem cell_fuel_eq {g : Rules} {diag : Nat → List String} :
    ∀ d {f f' i j : Nat}, j - i = d → j - i ≤ f → j - i ≤ f' →
      cell g diag f i j = cell g diag f' i j := by
  intro d
  induction d using Nat.strong_induction_on with
  | _ d ih =>
    intro f f' i j hd hf hf'
    by_cases hij : j ≤ i
    · rw [cell_diag g diag f i j hij, cell_diag g diag f' i j hij]
    · push_neg at hij
      have hd1 : 1 ≤ d := by omega
      obtain ⟨f0, rfl⟩ : ∃ f0, f = f0 + 1 := ⟨f - 1, by omega⟩
      obtain ⟨f0', rfl⟩ : ∃ f0', f' = f0' + 1 := ⟨f' - 1, by omega⟩
      rw [cell_span g diag f0 i j hij, cell_span g diag f0' i j hij]
      congr 1
      apply flatMap_congr
      intro k hk
      rw [List.mem_range'] at hk
      have h1 : cell g diag f0 i k = cell g diag f0' i k :=
        ih (k - i) (by omega) rfl (by omega) (by omega)
      have h2 : cell g diag f0 (k + 1) j = cell g diag f0' (k + 1) j :=
        ih (j - (k + 1)) (by omega) rfl (by omega) (by omega)
      rw [h1, h2]

end ChartLemmas

section SpanLemmas

open CKY

theorem spanOf_diag {toks : List String} {i : Nat} (hi : i < toks.length) :
    spanOf toks i i = [toks.getD i ""] := by
  unfold spanOf
  have h1 : i - i + 1 = 1 := by omega
  rw [h1, List.drop_eq_getElem_cons hi, List.take_succ_cons, List.take_zero,
    List.getD_eq_getElem toks "" hi]

theorem spanOf_split {toks : List String} {i k j : Nat} (h1 : i ≤ k)
    (h2 : k < j) :
    spanOf toks i j = spanOf toks i k ++ spanOf toks (k + 1) j := by
  unfold spanOf
  have harith : j - i + 1 = (k - i + 1) + (j - k) := by omega
  rw [harith, List.take_add, List.drop_drop]
  have h3 : i + (k - i + 1) = k + 1 := by omega
  have h4 : j - (k + 1) + 1 = j - k := by omega
  rw [h3, h4]

theorem spanOf_length {toks : List String} {i j : Nat} (hi : i ≤ j)
    (hj : j < toks.length) : (spanOf toks i j).length = j - i + 1 := by
  unfold spanOf
  rw [List.length_take, List.length_drop]
  omega

theorem spanOf_full {toks : List String} (hne : toks ≠ []) :
    spanOf toks 0 (toks.length - 1) = toks := by
  unfold spanOf
  have : toks.length - 1 - 0 + 1 = toks.length := by
    cases toks with
    | nil => exact absurd rfl hne
    | cons x xs => simp
  rw [this, List.drop_zero, List.take_length]

theorem mem_diagCellLex {g : Rules} {toks : List String} {i : Nat}
    {A : String} :
    A ∈ diagCell g toks none i ↔ HasRule g A [toks.getD i ""] := by
  show A ∈ diagCellLex g (toks.getD i "") ↔ _
  rw [diagCellLex, mem_addUnique]
  simp [mem_terminalRules]

theorem IsCNF_hasRule {g : Rules} (h : IsCNF g = true) {A : String}
    {p : Production} (hr : HasRule g A p) :
    (∃ t, p = [t] ∧ isNonterminal g t = false) ∨
      ∃ b c, p = [b, c] ∧ isNonterminal g b = true ∧
        isNonterminal g c = true := by
  obtain ⟨ps, hmem, hp⟩ := hr
  rw [IsCNF, List.all_eq_true] at h
  have h2 := List.all_eq_true.mp (h (A, ps) hmem) p hp
  match p with
  | [t] =>
    simp only [Bool.not_eq_true'] at h2
    exact .inl ⟨t, rfl, h2⟩
  | [b, c] =>
    rw [Bool.and_eq_true] at h2
    exact .inr ⟨b, c, rfl, h2.1, h2.2⟩
  | [] => cases h2
  | _ :: _ :: _ :: _ => cases h2

theorem IsCNF_ne_nil {g : Rules} (h : IsCNF g = true) :
    ∀ A p, HasRule g A p → p ≠ [] := by
  intro A p hr
  rcases IsCNF_hasRule h hr with ⟨t, rfl, -⟩ | ⟨b, c, rfl, -, -⟩ <;> simp

end SpanLemmas

section ChartCorrectness

open CKY

theorem cell_sound {g : Rules} (hcnf : IsCNF g = true) {toks : List String} :
    ∀ d {f i j : Nat}, j - i = d → j - i ≤ f → i ≤ j → j < toks.length →
      ∀ A, A ∈ cell g (diagCell g toks none) f i j →
        DerStr g [A] (spanOf toks i j) := by
  intro d
  induction d using Nat.strong_induction_on with
  | _ d ih =>
    intro f i j hd hf hij hj A hA
    by_cases hji : j ≤ i
    · have hii : i = j := le_antisymm hij hji
      subst hii
      rw [cell_diag g _ f i i (le_refl i), mem_diagCellLex] at hA
      rw [spanOf_diag (by omega)]
      have hterm : isNonterminal g (toks.getD i "") = false := by
        rcases IsCNF_hasRule hcnf hA with ⟨t, ht, hnt⟩ | ⟨b, c, hbc, -, -⟩
        · obtain rfl : toks.getD i "" = t := by injection ht
          exact hnt
        · exact absurd hbc (by simp)
      exact .rule hA (.term hterm .nil)
    · push_neg at hji
      obtain ⟨f0, rfl⟩ : ∃ f0, f = f0 + 1 := ⟨f - 1, by omega⟩
      rw [cell_span_mem hji] at hA
      obtain ⟨k, hk1, hk2, b, c, hb, hc, hr⟩ := hA
      have hderb := ih (k - i) (by omega) rfl (by omega) hk1 (by omega) b hb
      have hderc := ih (j - (k + 1)) (by omega) rfl (by omega) (by omega) hj
        c hc
      rw [spanOf_split hk1 hk2]
      exact .rule hr (by simpa using derStr_append hderb hderc)

theorem cell_complete {g : Rules} (hcnf : IsCNF g = true)
    {toks : List String} :
    ∀ d {f i j : Nat}, j - i = d → j - i ≤ f → i ≤ j → j < toks.length →
      ∀ A, isNonterminal g A = true →
        DerStr g [A] (spanOf toks i j) →
        A ∈ cell g (diagCell g toks none) f i j := by
  intro d
  induction d using Nat.strong_induction_on with
  | _ d ih =>
    intro f i j hd hf hij hj A hnt hder
    rcases derStr_cons_inv hder with ⟨hfalse, -⟩ | ⟨p, hr, hd2⟩
    · rw [hnt] at hfalse
      cases hfalse
    · rw [List.append_nil] at hd2
      rcases IsCNF_hasRule hcnf hr with ⟨t, rfl, hterm⟩ | ⟨B, C, rfl, hB, hC⟩
      · have hts := derStr_term_singleton hterm hd2
        have hlen := spanOf_length hij hj
        rw [hts] at hlen
        have hieq : i = j := by
          simp only [List.length_singleton] at hlen
          omega
        subst hieq
        rw [cell_diag g _ f i i (le_refl i), mem_diagCellLex]
        have hsp := @spanOf_diag toks i (by omega)
        rw [hts] at hsp
        obtain rfl : t = toks.getD i "" := by injection hsp
        exact hr
      · have hnen := IsCNF_ne_nil hcnf
        have hlen := spanOf_length hij hj
        have h2 : 2 ≤ (spanOf toks i j).length := by
          simpa using derStr_length hnen hd2
        have hij2 : i < j := by omega
        obtain ⟨f0, rfl⟩ : ∃ f0, f = f0 + 1 := ⟨f - 1, by omega⟩
        obtain ⟨u, v, huv, hu, hv⟩ := derStr_split hd2 [B] [C] rfl
        have hul : 1 ≤ u.length := by simpa using derStr_length hnen hu
        have hvl : 1 ≤ v.length := by simpa using derStr_length hnen hv
        have hsum : u.length + v.length = j - i + 1 := by
          have hc := congrArg List.length huv
          simp only [List.length_append] at hc
          omega
        have hk1 : i ≤ i + u.length - 1 := by omega
        have hk2 : i + u.length - 1 < j := by omega
        have hsplit := @spanOf_split toks i (i + u.length - 1) j hk1 hk2
        have hulen : u.length = (spanOf toks i (i + u.length - 1)).length := by
          rw [spanOf_length hk1 (by omega)]
          omega
        obtain ⟨hueq, hveq⟩ := List.append_inj (huv.symm.trans hsplit) hulen
        have hbmem := ih (i + u.length - 1 - i) (by omega) (f := f0) rfl
          (by omega) hk1 (by omega) B hB (hueq ▸ hu)
        have hcmem := ih (j - (i + u.length - 1 + 1)) (by omega) (f := f0)
          rfl (by omega) (by omega) hj C hC (hveq ▸ hv)
        exact (cell_span_mem hij2).mpr
          ⟨i + u.length - 1, hk1, hk2, B, C, hbmem, hcmem, hr⟩

end ChartCorrectness

theorem cell_zero_span {g : CKY.Rules} {diag : Nat → List String}
    {i j : Nat} (hij : i < j) : CKY.cell g diag 0 i j = [] := by
  simp [CKY.cell, Nat.not_le.mpr hij]

theorem mem_cell_isNT {g : CKY.Rules} {toks : List String} {f i j : Nat}
    {A : String}
    (hA : A ∈ CKY.cell g (CKY.diagCell g toks none) f i j) :
    CKY.isNonterminal g A = true := by
  by_cases hij : j ≤ i
  · rw [cell_diag g _ f i j hij, mem_diagCellLex] at hA
    exact isNonterminal_of_hasRule hA
  · push_neg at hij
    cases f with
    | zero => rw [cell_zero_span hij] at hA; cases hA
    | succ f0 =>
      rw [cell_span_mem hij] at hA
      obtain ⟨k, hk1, hk2, b, c, hb, hc, hr⟩ := hA
      exact isNonterminal_of_hasRule hr

theorem parse_none_success (g : CKY.LoadedGrammar) (toks : List String)
    (hne : toks ≠ []) :
    (CKY.parse g toks none).1 = true ↔
      g.start ∈ CKY.cell g.grammar (CKY.diagCell g.grammar toks none)
        toks.length 0 (toks.length - 1) := by
  have hn : ¬toks.length = 0 := by simpa using hne
  by_cases hs : g.start ∈ CKY.cell g.grammar (CKY.diagCell g.grammar toks none)
      toks.length 0 (toks.length - 1)
  · simp [CKY.parse, hn, CKY.consTruthy, hs]
  · simp [CKY.parse, hn, CKY.consTruthy, hs]

/-- **C2.** For a grammar in CNF loaded into the CKY parser and a
non-empty token sequence parsed without POS constraints: the chart cell
`(i, j)` contains exactly the non-terminals that derive
`tokens[i..j]` under the grammar, and `parse` returns success iff the
start symbol is in cell `(0, n-1)`, i.e. iff the start symbol derives
the whole token sequence. -/
theorem cky_chart_exact (g : CKY.LoadedGrammar) (toks : List String)
    (hcnf : CKY.IsCNF g.grammar = true) (hne : toks ≠ [])
    (hstart : CKY.isNonterminal g.grammar g.start = true) :
    (∀ i j, i ≤ j → j < toks.length → ∀ A,
      (A ∈ CKY.cell g.grammar (CKY.diagCell g.grammar toks none)
          toks.length i j ↔
        CKY.isNonterminal g.grammar A = true ∧
          CKY.DerStr g.grammar [A] (CKY.spanOf toks i j))) ∧
    ((CKY.parse g toks none).1 = true ↔
      g.start ∈ CKY.cell g.grammar (CKY.diagCell g.grammar toks none)
        toks.length 0 (toks.length - 1)) ∧
    ((CKY.parse g toks none).1 = true ↔
      CKY.DerStr g.grammar [g.start] toks) := by
  have hn1 : 1 ≤ toks.length := by
    cases toks with
    | nil => exact absurd rfl hne
    | cons x xs => simp
  have hmain : ∀ i j, i ≤ j → j < toks.length → ∀ A,
      (A ∈ CKY.cell g.grammar (CKY.diagCell g.grammar toks none)
          toks.length i j ↔
        CKY.isNonterminal g.grammar A = true ∧
          CKY.DerStr g.grammar [A] (CKY.spanOf toks i j)) := by
    intro i j hij hj A
    constructor
    · intro hA
      refine ⟨mem_cell_isNT hA, ?_⟩
      exact cell_sound hcnf (j - i) rfl (by omega) hij hj A hA
    · rintro ⟨hnt, hder⟩
      exact cell_complete hcnf (j - i) rfl (by omega) hij hj A hnt hder
  refine ⟨hmain, parse_none_success g toks hne, ?_⟩
  rw [parse_none_success g toks hne]
  rw [hmain 0 (toks.length - 1) (by omega) (by omega) g.start]
  rw [spanOf_full hne]
  constructor
  · exact fun h => h.2
  · exact fun h => ⟨hstart, h⟩

/-- Witness for `cky_chart_exact` at the CNF grammar
`S -> A B, A -> a, B -> b` and the sentence `a b`. -/
theorem cky_chart_exact_witness :
    (CKY.parse Examples.gAB ["a", "b"] none).1 = true ↔
      CKY.DerStr Examples.gAB.grammar ["S"] ["a", "b"] :=
  (cky_chart_exact Examples.gAB ["a", "b"] (by decide) (by decide)
    (by decide)).2.2

section BuildTreesLemmas

open CKY

theorem backCell_diag (g : Rules) (diag : Nat → List String)
    (diagB : Nat → String → List Entry) (F i j : Nat) (nt : String)
    (hij : j ≤ i) : backCell g diag diagB F i j nt = diagB i nt := by
  simp [backCell, hij]

theorem backCell_span_mem {g : Rules} {diag : Nat → List String}
    {diagB : Nat → String → List Entry} {F i j : Nat} {nt : String}
    {e : Entry} (hij : i < j) :
    e ∈ backCell g diag diagB F i j nt ↔
      ∃ k b c, e = .binary b c k ∧ i ≤ k ∧ k < j ∧
        b ∈ cell g diag F i k ∧ c ∈ cell g diag F (k + 1) j ∧
        HasRule g nt [b, c] := by
  rw [backCell]
  rw [if_neg (Nat.not_le.mpr hij)]
  simp only [List.mem_flatMap, List.mem_filterMap, List.mem_range'_1]
  constructor
  · rintro ⟨k, ⟨hk1, hk2⟩, b, hb, c, hc, a, ha, hif⟩
    by_cases hanteq : a = nt
    · rw [if_pos hanteq] at hif
      injection hif with hif
      subst hanteq
      exact ⟨k, b, c, hif.symm, hk1, by omega, hb, hc,
        mem_binaryRules.mp ha⟩
    · rw [if_neg hanteq] at hif
      cases hif
  · rintro ⟨k, b, c, rfl, hk1, hk2, hb, hc, hr⟩
    exact ⟨k, ⟨hk1, by omega⟩, b, hb, c, hc, nt,
      mem_binaryRules.mpr hr, by simp⟩

theorem backCell_span_ne_nil {g : Rules} {diag : Nat → List String}
    {diagB : Nat → String → List Entry} {F i j : Nat} {nt : String}
    (hij : i < j) (hF : j - i ≤ F)
    (h : nt ∈ cell g diag F i j) :
    backCell g diag diagB F i j nt ≠ [] := by
  obtain ⟨F0, rfl⟩ : ∃ F0, F = F0 + 1 := ⟨F - 1, by omega⟩
  rw [cell_span_mem hij] at h
  obtain ⟨k, hk1, hk2, b, c, hb, hc, hr⟩ := h
  have hb' : b ∈ cell g diag (F0 + 1) i k := by
    rw [@cell_fuel_eq g diag (k - i) (F0 + 1) F0 i k rfl (by omega)
      (by omega)]
    exact hb
  have hc' : c ∈ cell g diag (F0 + 1) (k + 1) j := by
    rw [@cell_fuel_eq g diag (j - (k + 1)) (F0 + 1) F0 (k + 1) j rfl
      (by omega) (by omega)]
    exact hc
  exact List.ne_nil_of_mem ((backCell_span_mem hij).mpr
    ⟨k, b, c, rfl, hk1, hk2, hb', hc', hr⟩)

theorem appendRow_inl {nt : String} {l : CTree} :
    ∀ {rs : List CTree} {acc a : List CTree},
      appendRow nt l acc rs = .inl a →
      ∃ s, a = acc ++ s ∧ (rs ≠ [] → s ≠ []) := by
  intro rs
  induction rs with
  | nil =>
    intro acc a h
    injection h with h
    exact ⟨[], by simp [h.symm], fun hc => absurd rfl hc⟩
  | cons r rs' ih =>
    intro acc a h
    rw [appendRow] at h
    by_cases hlen : maxTrees ≤ (acc ++ [CTree.bin nt l r]).length
    · rw [if_pos hlen] at h
      cases h
    · rw [if_neg hlen] at h
      obtain ⟨s, rfl, -⟩ := ih h
      exact ⟨[CTree.bin nt l r] ++ s, by simp, by simp⟩

theorem appendRow_inr {nt : String} {l : CTree} :
    ∀ {rs : List CTree} {acc t : List CTree},
      appendRow nt l acc rs = .inr t → ∃ s, t = acc ++ s ∧ s ≠ [] := by
  intro rs
  induction rs with
  | nil => intro acc t h; cases h
  | cons r rs' ih =>
    intro acc t h
    rw [appendRow] at h
    by_cases hlen : maxTrees ≤ (acc ++ [CTree.bin nt l r]).length
    · rw [if_pos hlen] at h
      injection h with h
      exact ⟨[CTree.bin nt l r], by simp [h.symm], by simp⟩
    · rw [if_neg hlen] at h
      obtain ⟨s, rfl, hs⟩ := ih h
      exact ⟨[CTree.bin nt l r] ++ s, by simp, by simp⟩

theorem appendPairs_inl {nt : String} {rs : List CTree} :
    ∀ {ls : List CTree} {acc a : List CTree},
      appendPairs nt rs acc ls = .inl a →
      ∃ s, a = acc ++ s ∧ (ls ≠ [] → rs ≠ [] → s ≠ []) := by
  intro ls
  induction ls with
  | nil =>
    intro acc a h
    injection h with h
    exact ⟨[], by simp [h.symm], fun hc => absurd rfl hc⟩
  | cons l ls' ih =>
    intro acc a h
    rw [appendPairs] at h
    cases hrow : appendRow nt l acc rs with
    | inr t => rw [hrow] at h; cases h
    | inl a1 =>
      rw [hrow] at h
      obtain ⟨s1, rfl, hs1⟩ := appendRow_inl hrow
      obtain ⟨s2, rfl, -⟩ := ih h
      refine ⟨s1 ++ s2, by simp, fun _ hrs => ?_⟩
      have := hs1 hrs
      simp [this]

theorem appendPairs_inr {nt : String} {rs : List CTree} :
    ∀ {ls : List CTree} {acc t : List CTree},
      appendPairs nt rs acc ls = .inr t → ∃ s, t = acc ++ s ∧ s ≠ [] := by
  intro ls
  induction ls with
  | nil => intro acc t h; cases h
  | cons l ls' ih =>
    intro acc t h
    rw [appendPairs] at h
    cases hrow : appendRow nt l acc rs with
    | inr t1 =>
      rw [hrow] at h
      injection h with h
      subst h
      exact appendRow_inr hrow
    | inl a1 =>
      rw [hrow] at h
      obtain ⟨s1, rfl, -⟩ := appendRow_inl hrow
      obtain ⟨s2, rfl, hs2⟩ := ih h
      exact ⟨s1 ++ s2, by simp, by simp [hs2]⟩

theorem goEntries_acc_prefix (bt : Nat → Nat → String → List CTree)
    (i j : Nat) (nt : String) :
    ∀ (es : List Entry) (acc : List CTree),
      ∃ s, goEntries bt i j nt acc es = acc ++ s := by
  intro es
  induction es with
  | nil => intro acc; exact ⟨[], by simp [goEntries]⟩
  | cons e es' ih =>
    intro acc
    cases e with
    | terminal w =>
      obtain ⟨s, hs⟩ := ih (acc ++ [.leaf nt w])
      exact ⟨[CTree.leaf nt w] ++ s, by simp [goEntries, hs]⟩
    | node cnt ci cj =>
      obtain ⟨s, hs⟩ := ih (acc ++ (bt ci cj cnt).map (CTree.unit nt))
      exact ⟨(bt ci cj cnt).map (CTree.unit nt) ++ s,
        by simp [goEntries, hs]⟩
    | binary b c k =>
      show ∃ s, (match appendPairs nt ((bt (k + 1) j c).take maxTrees) acc
          ((bt i k b).take maxTrees) with
        | .inr t => t
        | .inl a => goEntries bt i j nt a es') = acc ++ s
      cases hp : appendPairs nt ((bt (k + 1) j c).take maxTrees) acc
          ((bt i k b).take maxTrees) with
      | inr t =>
        obtain ⟨s, rfl, -⟩ := appendPairs_inr hp
        exact ⟨s, rfl⟩
      | inl a =>
        obtain ⟨s1, rfl, -⟩ := appendPairs_inl hp
        obtain ⟨s2, hs2⟩ := ih (acc ++ s1)
        exact ⟨s1 ++ s2, by simp [hs2]⟩

theorem goEntries_ne_nil_of_acc (bt : Nat → Nat → String → List CTree)
    (i j : Nat) (nt : String) (es : List Entry) (acc : List CTree)
    (hacc : acc ≠ []) : goEntries bt i j nt acc es ≠ [] := by
  obtain ⟨s, hs⟩ := goEntries_acc_prefix bt i j nt es acc
  rw [hs]
  simp [hacc]

end BuildTreesLemmas

section BuildTreesNeNil

open CKY

theorem goEntries_terminal_only (bt : Nat → Nat → String → List CTree)
    (i j : Nat) (nt : String) :
    ∀ (es : List Entry) (acc : List CTree),
      (∀ e ∈ es, ∃ w, e = .terminal w) →
      (goEntries bt i j nt acc es).length = acc.length + es.length := by
  intro es
  induction es with
  | nil => intro acc _; simp [goEntries]
  | cons e es' ih =>
    intro acc hall
    obtain ⟨w, rfl⟩ := hall e (by simp)
    have h2 := ih (acc ++ [CTree.leaf nt w])
      fun e he => hall e (by simp [he])
    show (goEntries bt i j nt (acc ++ [CTree.leaf nt w]) es').length = _
    rw [h2]
    simp only [List.length_append, List.length_cons, List.length_nil]
    omega

theorem buildTrees_singleton_terminal
    {bk : Nat → Nat → String → List Entry} {f i j : Nat} {nt w : String}
    (hbk : bk i j nt = [.terminal w]) :
    buildTrees bk (f + 1) i j nt = [.leaf nt w] := by
  show goEntries (buildTrees bk f) i j nt [] ((bk i j nt).take maxTrees) =
    [.leaf nt w]
  rw [hbk]
  show goEntries (buildTrees bk f) i j nt ([] ++ [.leaf nt w]) [] = _
  simp [goEntries]

theorem diagBackLex_terminal_only {g : Rules} {word nt : String}
    {e : Entry} (he : e ∈ diagBackLex g word nt) : ∃ w, e = .terminal w := by
  simp only [diagBackLex, List.mem_filterMap] at he
  obtain ⟨a, -, hif⟩ := he
  by_cases ha : a = nt
  · rw [if_pos ha] at hif
    injection hif with hif
    exact ⟨word, hif.symm⟩
  · rw [if_neg ha] at hif
    cases hif

theorem diagBackLex_ne_nil {g : Rules} {word nt : String}
    (h : nt ∈ terminalRules g word) : diagBackLex g word nt ≠ [] := by
  apply List.ne_nil_of_mem (a := Entry.terminal word)
  simp only [diagBackLex, List.mem_filterMap]
  exact ⟨nt, h, by simp⟩

theorem diagBack_truthy {g : Rules} {toks : List String}
    {cons : Option (List String)} {i : Nat} (nt : String)
    (hct : consTruthy cons = true) :
    diagBack g toks cons i nt =
      diagBackCons g ((cons.getD []).getD i "") (toks.getD i "") i nt := by
  simp [diagBack, hct]

theorem diagBack_falsy {g : Rules} {toks : List String}
    {cons : Option (List String)} {i : Nat} (nt : String)
    (hct : consTruthy cons = false) :
    diagBack g toks cons i nt = diagBackLex g (toks.getD i "") nt := by
  simp [diagBack, hct]

theorem diagBackCons_tag {g : Rules} {tag word : String} {i : Nat} :
    diagBackCons g tag word i tag = [.terminal word] := by
  simp [diagBackCons]

theorem diagBackCons_node {g : Rules} {tag word nt : String} {i : Nat}
    (h1 : nt ≠ tag) (h2 : nt ∈ terminalRules g tag) :
    diagBackCons g tag word i nt = [.node tag i i] := by
  simp [diagBackCons, h1, h2]

theorem diagCell_truthy {g : Rules} {toks : List String}
    {cons : Option (List String)} {i : Nat} (hct : consTruthy cons = true) :
    diagCell g toks cons i = diagCellCons g ((cons.getD []).getD i "") := by
  simp [diagCell, hct]

theorem diagCell_falsy {g : Rules} {toks : List String}
    {cons : Option (List String)} {i : Nat} (hct : consTruthy cons = false) :
    diagCell g toks cons i = diagCellLex g (toks.getD i "") := by
  simp [diagCell, hct]

theorem buildTrees_ne_nil {g : Rules} {toks : List String}
    {cons : Option (List String)} :
    ∀ d (F f i j : Nat) (nt : String), j - i = d → j - i ≤ F →
      d + 2 ≤ f →
      nt ∈ cell g (diagCell g toks cons) F i j →
      buildTrees (backCell g (diagCell g toks cons)
        (diagBack g toks cons) F) f i j nt ≠ [] := by
  intro d
  induction d using Nat.strong_induction_on with
  | _ d ih =>
    intro F f i j nt hd hF hf hmem
    obtain ⟨f1, rfl⟩ : ∃ f1, f = f1 + 1 := ⟨f - 1, by omega⟩
    by_cases hij : j ≤ i
    · rw [cell_diag g _ F i j hij] at hmem
      have hbk : ∀ nt', backCell g (diagCell g toks cons)
          (diagBack g toks cons) F i j nt' = diagBack g toks cons i nt' :=
        fun nt' => backCell_diag g _ _ F i j nt' hij
      by_cases hct : consTruthy cons = true
      · rw [diagCell_truthy hct] at hmem
        rw [diagCellCons, mem_addUnique] at hmem
        by_cases htag : nt = (cons.getD []).getD i ""
        · have hterm : diagBack g toks cons i nt =
              [.terminal (toks.getD i "")] := by
            rw [diagBack_truthy nt hct, htag, diagBackCons_tag]
          rw [buildTrees_singleton_terminal ((hbk nt).trans hterm)]
          simp
        · have hmem2 : nt ∈ terminalRules g ((cons.getD []).getD i "") := by
            rcases hmem with hmem | hmem
            · exact absurd (by simpa using hmem) htag
            · exact hmem
          have hnode : diagBack g toks cons i nt =
              [.node ((cons.getD []).getD i "") i i] := by
            rw [diagBack_truthy nt hct, diagBackCons_node htag hmem2]
          obtain ⟨f2, rfl⟩ : ∃ f2, f1 = f2 + 1 := ⟨f1 - 1, by omega⟩
          show goEntries (buildTrees (backCell g (diagCell g toks cons)
              (diagBack g toks cons) F) (f2 + 1)) i j nt []
            ((backCell g (diagCell g toks cons) (diagBack g toks cons)
              F i j nt).take maxTrees) ≠ []
          rw [hbk nt, hnode]
          have htagback : backCell g (diagCell g toks cons)
              (diagBack g toks cons) F i i ((cons.getD []).getD i "") =
              [.terminal (toks.getD i "")] := by
            rw [backCell_diag g _ _ F i i _ (le_refl i)]
            rw [diagBack_truthy _ hct, diagBackCons_tag]
          show goEntries (buildTrees (backCell g (diagCell g toks cons)
              (diagBack g toks cons) F) (f2 + 1)) i j nt ([] ++
            (buildTrees (backCell g (diagCell g toks cons)
              (diagBack g toks cons) F) (f2 + 1) i i
                ((cons.getD []).getD i "")).map (CTree.unit nt)) [] ≠ []
          rw [buildTrees_singleton_terminal htagback]
          simp [goEntries]
      · have hctf : consTruthy cons = false := by
          simpa using hct
        rw [diagCell_falsy hctf] at hmem
        rw [diagCellLex, mem_addUnique] at hmem
        have hmem2 : nt ∈ terminalRules g (toks.getD i "") := by
          rcases hmem with hmem | hmem
          · cases hmem
          · exact hmem
        have hlex : diagBack g toks cons i nt =
            diagBackLex g (toks.getD i "") nt := diagBack_falsy nt hctf
        intro hnil
        have hne := diagBackLex_ne_nil hmem2
        have hlen := goEntries_terminal_only
          (buildTrees (backCell g (diagCell g toks cons)
            (diagBack g toks cons) F) f1) i j nt
          ((diagBackLex g (toks.getD i "") nt).take maxTrees) []
          (fun e he => diagBackLex_terminal_only (List.mem_of_mem_take he))
        rw [show goEntries (buildTrees (backCell g (diagCell g toks cons)
            (diagBack g toks cons) F) f1) i j nt []
            ((diagBackLex g (toks.getD i "") nt).take maxTrees) = [] by
          rw [← hlex, ← hbk nt]; exact hnil] at hlen
        simp only [List.length_nil, List.length_take, maxTrees] at hlen
        have : (diagBackLex g (toks.getD i "") nt).length = 0 := by omega
        exact hne (List.eq_nil_of_length_eq_zero this)
    · push_neg at hij
      have hbne : backCell g (diagCell g toks cons)
          (diagBack g toks cons) F i j nt ≠ [] :=
        backCell_span_ne_nil hij hF hmem
      obtain ⟨e, es0, hcons⟩ := List.exists_cons_of_ne_nil hbne
      have hemem : e ∈ backCell g (diagCell g toks cons)
          (diagBack g toks cons) F i j nt := by
        rw [hcons]; simp
      obtain ⟨k, b, c, rfl, hk1, hk2, hbmem, hcmem, -⟩ :=
        (backCell_span_mem hij).mp hemem
      show goEntries (buildTrees _ f1) i j nt []
        ((backCell g (diagCell g toks cons) (diagBack g toks cons)
          F i j nt).take maxTrees) ≠ []
      rw [hcons]
      rw [show (Entry.binary b c k :: es0).take maxTrees =
        Entry.binary b c k :: es0.take (maxTrees - 1) from rfl]
      have hls : buildTrees (backCell g (diagCell g toks cons)
          (diagBack g toks cons) F) f1 i k b ≠ [] :=
        ih (k - i) (by omega) F f1 i k b rfl (by omega) (by omega) hbmem
      have hrs : buildTrees (backCell g (diagCell g toks cons)
          (diagBack g toks cons) F) f1 (k + 1) j c ≠ [] :=
        ih (j - (k + 1)) (by omega) F f1 (k + 1) j c rfl (by omega)
          (by omega) hcmem
      show (match appendPairs nt ((buildTrees _ f1 (k + 1) j c).take maxTrees)
          [] ((buildTrees _ f1 i k b).take maxTrees) with
        | .inr t => t
        | .inl a => goEntries _ i j nt a (es0.take (maxTrees - 1))) ≠ []
      cases hp : appendPairs nt
          ((buildTrees (backCell g (diagCell g toks cons)
            (diagBack g toks cons) F) f1 (k + 1) j c).take maxTrees)
          [] ((buildTrees (backCell g (diagCell g toks cons)
            (diagBack g toks cons) F) f1 i k b).take maxTrees) with
      | inr t =>
        obtain ⟨s, hts, hs⟩ := appendPairs_inr hp
        rw [hts]
        simpa using hs
      | inl a =>
        obtain ⟨s, has, hs⟩ := appendPairs_inl hp
        have hsne : s ≠ [] := hs
          (by simpa [List.take_eq_nil_iff, maxTrees] using hls)
          (by simpa [List.take_eq_nil_iff, maxTrees] using hrs)
        rw [has]
        exact goEntries_ne_nil_of_acc _ i j nt _ _ (by simpa using hsne)

end BuildTreesNeNil

/-- **C3.** For every loaded grammar and every input to `parse` (with or
without POS constraints), `parse` returns success iff the returned list
of extracted parse trees is non-empty (the tree cap being the default
`max_trees = 10 ≥ 1`): on failure it returns `(false, none)`, and on
success the tree extraction from the back-pointers yields at least one
tree. -/
theorem parse_success_iff_trees (g : CKY.LoadedGrammar) (toks : List String)
    (cons : Option (List String)) :
    (CKY.parse g toks cons).1 = true ↔
      ∃ ts, (CKY.parse g toks cons).2 = some ts ∧ ts ≠ [] := by
  by_cases hn : toks.length = 0
  · rw [show CKY.parse g toks cons = (false, none) by simp [CKY.parse, hn]]
    simp
  · by_cases hg : (CKY.consTruthy cons &&
        ((cons.getD []).length != toks.length)) = true
    · rw [show CKY.parse g toks cons = (false, none) by
        simp [CKY.parse, hn, hg]]
      simp
    · by_cases hs : g.start ∈ CKY.cell g.grammar
          (CKY.diagCell g.grammar toks cons) toks.length 0 (toks.length - 1)
      · have h1 : (CKY.parse g toks cons).1 = true := by
          simp [CKY.parse, hn, hg, hs]
        have h2 : (CKY.parse g toks cons).2 =
            some (CKY.buildTrees (CKY.backCell g.grammar
              (CKY.diagCell g.grammar toks cons)
              (CKY.diagBack g.grammar toks cons) toks.length)
              (toks.length + 1) 0 (toks.length - 1) g.start) := by
          simp [CKY.parse, hn, hg, hs]
        rw [h1, h2]
        refine ⟨fun _ => ⟨_, rfl, ?_⟩, fun _ => rfl⟩
        exact buildTrees_ne_nil (toks.length - 1) toks.length
          (toks.length + 1) 0 (toks.length - 1) g.start rfl (by omega)
          (by omega) hs
      · rw [show CKY.parse g toks cons = (false, none) by
          simp [CKY.parse, hn, hg, hs]]
        simp

theorem cell_empty_over {g : CKY.Rules} {diag : Nat → List String}
    {i0 : Nat} (hdiag : diag i0 = []) :
    ∀ f a b, a ≤ i0 → i0 ≤ b → CKY.cell g diag f a b = [] := by
  intro f
  induction f with
  | zero =>
    intro a b ha hb
    by_cases hab : b ≤ a
    · rw [cell_diag g diag 0 a b hab]
      obtain rfl : a = i0 := by omega
      exact hdiag
    · exact cell_zero_span (by omega)
  | succ f' ih =>
    intro a b ha hb
    by_cases hab : b ≤ a
    · rw [cell_diag g diag (f' + 1) a b hab]
      obtain rfl : a = i0 := by omega
      exact hdiag
    · push_neg at hab
      rw [cell_span g diag f' a b hab]
      have hflat : ((List.range' a (b - a)).flatMap fun k =>
          (CKY.cell g diag f' a k).flatMap fun x =>
            (CKY.cell g diag f' (k + 1) b).flatMap fun c =>
              CKY.binaryRules g x c) = [] := by
        rw [List.flatMap_eq_nil_iff]
        intro k hk
        rw [List.mem_range'_1] at hk
        by_cases hki : i0 ≤ k
        · rw [ih a k ha hki]
          rfl
        · rw [List.flatMap_eq_nil_iff]
          intro x _
          rw [ih (k + 1) b (by omega) hb]
          rfl
      rw [hflat]
      rfl

/-- **C6 (amended).** `parse` never raises: with an empty token sequence
it returns `(false, none)`; with a provided *non-empty* POS-constraint
sequence of a length different from the token sequence it returns
`(false, none)` (an empty constraint list is falsy and is handled as no
constraints, see the counterexample); and an unknown token — one with no
applicable terminal rule — leaves its diagonal cell empty, every span
covering it stays empty, and the parse returns failure rather than
raising. -/
theorem parse_error_handling (g : CKY.LoadedGrammar) (toks : List String)
    (cs : List String) (i : Nat) :
    (CKY.parse g [] (some cs) = (false, none) ∧
      CKY.parse g [] none = (false, none)) ∧
    (cs ≠ [] → cs.length ≠ toks.length →
      CKY.parse g toks (some cs) = (false, none)) ∧
    (i < toks.length → CKY.terminalRules g.grammar (toks.getD i "") = [] →
      (∀ a b, a ≤ i → i ≤ b → CKY.cell g.grammar
        (CKY.diagCell g.grammar toks none) toks.length a b = []) ∧
      (CKY.parse g toks none).1 = false) := by
  refine ⟨⟨rfl, rfl⟩, ?_, ?_⟩
  · intro hcs hlen
    obtain ⟨c0, cs0, rfl⟩ := List.exists_cons_of_ne_nil hcs
    by_cases hn : toks.length = 0
    · simp [CKY.parse, hn]
    · have hguard : (CKY.consTruthy (some (c0 :: cs0)) &&
          (((some (c0 :: cs0)).getD []).length != toks.length)) = true := by
        simp only [CKY.consTruthy, Bool.true_and, Option.getD_some]
        simpa using hlen
      simp only [CKY.parse]
      rw [if_neg hn, if_pos hguard]
  · intro hi htr
    have hdiag : CKY.diagCell g.grammar toks none i = [] := by
      show CKY.diagCellLex g.grammar (toks.getD i "") = []
      rw [CKY.diagCellLex, htr]
      rfl
    have hcells := fun a b (ha : a ≤ i) (hb : i ≤ b) =>
      cell_empty_over (g := g.grammar) hdiag toks.length a b ha hb
    refine ⟨hcells, ?_⟩
    have hne : toks ≠ [] := by
      intro h
      rw [h] at hi
      simp at hi
    have hnm := parse_none_success g toks hne
    have hempty := hcells 0 (toks.length - 1) (by omega) (by omega)
    rw [hempty] at hnm
    simp only [List.not_mem_nil, iff_false] at hnm
    simpa using hnm

/-- Witness for `parse_error_handling` at concrete inputs: the empty
sentence, a genuinely mismatched non-empty constraint list, and a
sentence containing a token with no terminal rule. -/
theorem parse_error_handling_witness :
    CKY.parse Examples.gUnit [] none = (false, none) ∧
      CKY.parse Examples.gUnit ["a"] (some ["A", "B"]) = (false, none) ∧
      (CKY.parse Examples.gUnit ["b"] none).1 = false :=
  ⟨(parse_error_handling Examples.gUnit [] ["x"] 0).1.2,
   (parse_error_handling Examples.gUnit ["a"] ["A", "B"] 0).2.1
     (by decide) (by decide),
   ((parse_error_handling Examples.gUnit ["b"] [] 0).2.2
     (by decide) (by decide)).2⟩

section BuildTreesBound

open CKY

theorem buildTrees_zero (bk : Nat → Nat → String → List Entry) (i j : Nat)
    (nt : String) : buildTrees bk 0 i j nt = [] := rfl

theorem buildTrees_succ (bk : Nat → Nat → String → List Entry)
    (f i j : Nat) (nt : String) :
    buildTrees bk (f + 1) i j nt =
      goEntries (buildTrees bk f) i j nt [] ((bk i j nt).take maxTrees) :=
  rfl

theorem goEntries_nil (bt : Nat → Nat → String → List CTree) (i j : Nat)
    (nt : String) (acc : List CTree) : goEntries bt i j nt acc [] = acc :=
  rfl

theorem goEntries_terminal (bt : Nat → Nat → String → List CTree)
    (i j : Nat) (nt : String) (acc : List CTree) (w : String)
    (es : List Entry) :
    goEntries bt i j nt acc (.terminal w :: es) =
      goEntries bt i j nt (acc ++ [.leaf nt w]) es := rfl

theorem goEntries_node (bt : Nat → Nat → String → List CTree) (i j : Nat)
    (nt : String) (acc : List CTree) (cnt : String) (ci cj : Nat)
    (es : List Entry) :
    goEntries bt i j nt acc (.node cnt ci cj :: es) =
      goEntries bt i j nt (acc ++ (bt ci cj cnt).map (CTree.unit nt)) es :=
  rfl

theorem take_maxTrees_singleton {α : Type} (x : α) :
    ([x]).take maxTrees = [x] := rfl

theorem diagBackCons_none {g : Rules} {tag word nt : String} {i : Nat}
    (h1 : nt ≠ tag) (h2 : nt ∉ terminalRules g tag) :
    diagBackCons g tag word i nt = [] := by
  simp [diagBackCons, h1, h2]

theorem appendRow_length_inl {nt : String} {l : CTree} :
    ∀ {rs acc a : List CTree}, acc.length < maxTrees →
      appendRow nt l acc rs = .inl a → a.length < maxTrees := by
  intro rs
  induction rs with
  | nil =>
    intro acc a hacc h
    injection h with h
    rw [← h]
    exact hacc
  | cons r rs' ih =>
    intro acc a hacc h
    rw [appendRow] at h
    by_cases hlen : maxTrees ≤ (acc ++ [CTree.bin nt l r]).length
    · rw [if_pos hlen] at h
      cases h
    · rw [if_neg hlen] at h
      exact ih (by omega) h

theorem appendRow_length_inr {nt : String} {l : CTree} :
    ∀ {rs acc t : List CTree}, acc.length < maxTrees →
      appendRow nt l acc rs = .inr t → t.length ≤ maxTrees := by
  intro rs
  induction rs with
  | nil => intro acc t hacc h; cases h
  | cons r rs' ih =>
    intro acc t hacc h
    rw [appendRow] at h
    by_cases hlen : maxTrees ≤ (acc ++ [CTree.bin nt l r]).length
    · rw [if_pos hlen] at h
      injection h with h
      rw [← h]
      simp only [List.length_append, List.length_cons, List.length_nil]
      omega
    · rw [if_neg hlen] at h
      exact ih (by omega) h

theorem appendPairs_length_inl {nt : String} {rs : List CTree} :
    ∀ {ls acc a : List CTree}, acc.length < maxTrees →
      appendPairs nt rs acc ls = .inl a → a.length < maxTrees := by
  intro ls
  induction ls with
  | nil =>
    intro acc a hacc h
    injection h with h
    rw [← h]
    exact hacc
  | cons l ls' ih =>
    intro acc a hacc h
    rw [appendPairs] at h
    cases hrow : appendRow nt l acc rs with
    | inr t => rw [hrow] at h; cases h
    | inl a1 =>
      rw [hrow] at h
      exact ih (appendRow_length_inl hacc hrow) h

theorem appendPairs_length_inr {nt : String} {rs : List CTree} :
    ∀ {ls acc t : List CTree}, acc.length < maxTrees →
      appendPairs nt rs acc ls = .inr t → t.length ≤ maxTrees := by
  intro ls
  induction ls with
  | nil => intro acc t hacc h; cases h
  | cons l ls' ih =>
    intro acc t hacc h
    rw [appendPairs] at h
    cases hrow : appendRow nt l acc rs with
    | inr t1 =>
      rw [hrow] at h
      injection h with h
      rw [← h]
      exact appendRow_length_inr hacc hrow
    | inl a1 =>
      rw [hrow] at h
      exact ih (appendRow_length_inl hacc hrow) h

theorem goEntries_binary_le (bt : Nat → Nat → String → List CTree)
    (i j : Nat) (nt : String) :
    ∀ (es : List Entry) (acc : List CTree),
      (∀ e ∈ es, ∃ b c k, e = Entry.binary b c k) →
      acc.length < maxTrees →
      (goEntries bt i j nt acc es).length ≤ maxTrees := by
  intro es
  induction es with
  | nil =>
    intro acc _ hacc
    rw [goEntries_nil]
    omega
  | cons e es' ih =>
    intro acc hall hacc
    obtain ⟨b, c, k, rfl⟩ := hall e (by simp)
    show (match appendPairs nt ((bt (k + 1) j c).take maxTrees) acc
        ((bt i k b).take maxTrees) with
      | .inr t => t
      | .inl a => goEntries bt i j nt a es').length ≤ maxTrees
    cases hp : appendPairs nt ((bt (k + 1) j c).take maxTrees) acc
        ((bt i k b).take maxTrees) with
    | inr t => exact appendPairs_length_inr hacc hp
    | inl a =>
      exact ih a (fun e he => hall e (by simp [he]))
        (appendPairs_length_inl hacc hp)

theorem buildTrees_le_maxTrees {g : Rules} {toks : List String}
    {cons : Option (List String)} :
    ∀ (f F i j : Nat) (nt : String),
      (buildTrees (backCell g (diagCell g toks cons)
        (diagBack g toks cons) F) f i j nt).length ≤ maxTrees := by
  intro f
  induction f with
  | zero =>
    intro F i j nt
    rw [buildTrees_zero]
    simp [maxTrees]
  | succ f1 ih =>
    intro F i j nt
    rw [buildTrees_succ]
    by_cases hij : j ≤ i
    · rw [backCell_diag g (diagCell g toks cons) (diagBack g toks cons)
        F i j nt hij]
      by_cases hct : consTruthy cons = true
      · rw [diagBack_truthy nt hct]
        by_cases htag : nt = (cons.getD []).getD i ""
        · rw [htag, diagBackCons_tag, take_maxTrees_singleton,
            goEntries_terminal, goEntries_nil]
          simp [maxTrees]
        · by_cases hmem : nt ∈ terminalRules g ((cons.getD []).getD i "")
          · rw [diagBackCons_node htag hmem, take_maxTrees_singleton,
              goEntries_node, goEntries_nil]
            simp only [List.nil_append, List.length_map]
            exact ih F i i ((cons.getD []).getD i "")
          · rw [diagBackCons_none htag hmem, List.take_nil, goEntries_nil]
            simp [maxTrees]
      · have hctf : consTruthy cons = false := by simpa using hct
        rw [diagBack_falsy nt hctf]
        rw [goEntries_terminal_only _ i j nt
          ((diagBackLex g (toks.getD i "") nt).take maxTrees) []
          (fun e he => diagBackLex_terminal_only (List.mem_of_mem_take he))]
        simp only [List.length_nil, List.length_take, maxTrees]
        omega
    · push_neg at hij
      apply goEntries_binary_le
      · intro e he
        obtain ⟨k, b, c, heq, -⟩ :=
          (backCell_span_mem hij).mp (List.mem_of_mem_take he)
        exact ⟨b, c, k, heq⟩
      · simp [maxTrees]

/-- **C4.** The tree enumeration of `_build_trees` is capped at every
`(non-terminal, span)` level by `max_trees`, whose default is `10`: on
any chart built by `parse` (any grammar, tokens and optional POS
constraints) every recursive `_build_trees` call returns at most
`max_trees` trees, and in particular whenever `parse` succeeds and
returns a tree list for the start symbol at the root span `(0, n-1)`,
that list has length at most `10`. -/
theorem parse_tree_cap (g : CKY.LoadedGrammar) (toks : List String)
    (cons : Option (List String)) (ts : List CKY.CTree) :
    CKY.maxTrees = 10 ∧
    ((CKY.parse g toks cons).2 = some ts → ts.length ≤ CKY.maxTrees) ∧
    (∀ f i j nt,
      (CKY.buildTrees (CKY.backCell g.grammar
        (CKY.diagCell g.grammar toks cons)
        (CKY.diagBack g.grammar toks cons) toks.length) f i j nt).length ≤
      CKY.maxTrees) := by
  refine ⟨rfl, ?_, fun f i j nt =>
    buildTrees_le_maxTrees f toks.length i j nt⟩
  intro h
  by_cases hn : toks.length = 0
  · rw [show CKY.parse g toks cons = (false, none) by
      simp [CKY.parse, hn]] at h
    cases h
  · by_cases hg : (CKY.consTruthy cons &&
        ((cons.getD []).length != toks.length)) = true
    · rw [show CKY.parse g toks cons = (false, none) by
        simp [CKY.parse, hn, hg]] at h
      cases h
    · by_cases hs : g.start ∈ CKY.cell g.grammar
          (CKY.diagCell g.grammar toks cons) toks.length 0 (toks.length - 1)
      · have h2 : (CKY.parse g toks cons).2 =
            some (CKY.buildTrees (CKY.backCell g.grammar
              (CKY.diagCell g.grammar toks cons)
              (CKY.diagBack g.grammar toks cons) toks.length)
              (toks.length + 1) 0 (toks.length - 1) g.start) := by
          simp [CKY.parse, hn, hg, hs]
        rw [h2] at h
        injection h with h
        rw [← h]
        exact buildTrees_le_maxTrees (toks.length + 1) toks.length 0
          (toks.length - 1) g.start
      · rw [show CKY.parse g toks cons = (false, none) by
          simp [CKY.parse, hn, hg, hs]] at h
        cases h

/-- Witness for `parse_tree_cap`: the successful parse of `["a"]` under
the one-rule grammar returns exactly one tree, and one is at most the
cap. -/
theorem parse_tree_cap_witness :
    [CKY.CTree.leaf "A" "a"].length ≤ CKY.maxTrees :=
  (parse_tree_cap Examples.gUnit ["a"] none
    [CKY.CTree.leaf "A" "a"]).2.1 rfl

end BuildTreesBound
